import Mathlib

/-!
# Verification of the padloc `encoding` module

A shallow embedding, in Lean 4, of `packages/core/src/encoding.ts`:
the `Serializable` contract (`toRaw` / `fromRaw` / `toJSON` / `fromJSON` /
`toBytes` / `fromBytes`), the structured-value codec (`marshal` / `unmarshal`),
and the byte/text codec primitives (`hexToBytes`, `bytesToHex`, `concatBytes`,
UTF-8 string conversion).

Modelling conventions:

* A JavaScript string is modelled as `List Char` (a sequence of Unicode scalar
  values; lone UTF-16 surrogates are outside the model).
* A byte is modelled as a `Nat` (meaningful values are `< 256`; `Uint8Array`
  element stores apply the ECMAScript `ToUint8` coercion, i.e. NaN becomes 0
  and other integers are reduced modulo 256, which the model makes explicit).
* JSON-representable structured values (the output of `JSON.parse` and the
  input of `JSON.stringify`) are modelled by the inductive `RawValue`; numbers
  are modelled as `Int` (IEEE-754 doubles, fractional literals and exponent
  notation are outside the model).
* Platform built-ins that are not part of the repository source
  (`JSON.stringify` / `JSON.parse`, `TextEncoder` / `TextDecoder`,
  `parseInt`, `Uint8Array` allocation) are modelled explicitly, following
  the specification's description of them; each such definition carries a
  doc comment saying so.
* Errors: `Err(ErrorCode.ENCODING_ERROR)` is modelled by
  `ErrKind.encodingError`; the raw `SyntaxError` thrown by `JSON.parse`
  (which `Serializable.fromJSON` does not catch) is modelled by the distinct
  `ErrKind.rawParseError`.
* In-place mutation of a `Serializable` instance is modelled by explicit
  state passing: an operation on an instance returns the instance's final
  property state together with an optional thrown error.
-/

/-! ## Basic character and digit helpers -/

/-- The four JSON whitespace characters (RFC 8259 `ws`). -/
def isJsonWs (c : Char) : Bool :=
  c = ' ' || c = '\t' || c = '\n' || c = '\r'

/-- ECMAScript `StrWhiteSpaceChar` (the characters `parseInt` skips at the
start of its input); the common ASCII subset plus NBSP. -/
def isJsWs (c : Char) : Bool :=
  c = ' ' || c = '\t' || c = '\n' || c = '\r' ||
  c = '\x0b' || c = '\x0c' || c = ' '

/-- Decimal digit test, `'0'`–`'9'`. -/
def isDigitChar (c : Char) : Bool :=
  '0' ≤ c && c ≤ '9'

/-- Hexadecimal digit test, `[0-9a-fA-F]` (the character class named by the
spec's hex rules). -/
def isHexDigitChar (c : Char) : Bool :=
  isDigitChar c || ('a' ≤ c && c ≤ 'f') || ('A' ≤ c && c ≤ 'F')

/-- Lowercase hexadecimal digit test, `[0-9a-f]`. -/
def isLowerHexDigitChar (c : Char) : Bool :=
  isDigitChar c || ('a' ≤ c && c ≤ 'f')

/-- Numeric value of a hexadecimal digit character. -/
def hexVal (c : Char) : Nat :=
  if isDigitChar c then c.toNat - '0'.toNat
  else if 'a' ≤ c && c ≤ 'f' then c.toNat - 'a'.toNat + 10
  else if 'A' ≤ c && c ≤ 'F' then c.toNat - 'A'.toNat + 10
  else 0

/-- The lowercase hexadecimal digit character for a value `0 ≤ n < 16`
(as produced by JavaScript `Number.prototype.toString(16)`). -/
def hexDigitChar (n : Nat) : Char :=
  if n < 10 then Char.ofNat ('0'.toNat + n)
  else Char.ofNat ('a'.toNat + (n - 10))

/-- The decimal digit character for a value `0 ≤ n < 10`. -/
def decDigitChar (n : Nat) : Char :=
  Char.ofNat ('0'.toNat + n)

/-- Decimal digit string of a natural number, most significant digit first
(as produced by JavaScript `Number.prototype.toString()` on a non-negative
integer). -/
def natDigits (n : Nat) : List Char :=
  if _h : n < 10 then [decDigitChar n]
  else natDigits (n / 10) ++ [decDigitChar (n % 10)]
  decreasing_by exact Nat.div_lt_self (by omega) (by omega)

/-- Decimal string of an integer, `'-'`-prefixed when negative
(as produced by JavaScript `Number.prototype.toString()` on an integer). -/
def intToChars (n : Int) : List Char :=
  if n < 0 then '-' :: natDigits n.natAbs else natDigits n.toNat

/-! ## The raw structured value model (JSON values) -/

/-- A raw structured value: the result of `JSON.parse` and the argument of
`JSON.stringify`.  Object fields are an ordered association list (JavaScript
objects preserve string-key insertion order, and `Object.entries` /
`JSON.stringify` / `JSON.parse` all traverse in that order).  Numbers are
modelled as integers. -/
inductive RawValue where
  | null
  | bool (b : Bool)
  | num (n : Int)
  | str (s : List Char)
  | arr (elems : List RawValue)
  | obj (fields : List (List Char × RawValue))

/-- The two kinds of exception relevant to this module: the library's
`Err(ErrorCode.ENCODING_ERROR)` and the raw `SyntaxError` thrown by
`JSON.parse` when it is invoked outside any `try`/`catch`. -/
inductive ErrKind where
  | encodingError
  | rawParseError
deriving DecidableEq

/-! ## JSON serialization (model of `JSON.stringify`)

`Serializable.toJSON` and `marshal` call the platform's `JSON.stringify`.
Modelled from the spec: "`marshal(value) → text`: serializes a structured
value to text using standard object/array/scalar encoding" — i.e. RFC 8259
JSON text with no added whitespace, which is what `JSON.stringify` emits. -/

/-- JSON escaping of one string character, exactly as `JSON.stringify` quotes
it: `"` and `\` get a backslash escape, the named control escapes `\b \t \n
\f \r` are used where available, the remaining control characters become
`\u00XX`, and every other character is emitted literally. -/
def escapeCharJSON (c : Char) : List Char :=
  if c = '"' then ['\\', '"']
  else if c = '\\' then ['\\', '\\']
  else if c = '\x08' then ['\\', 'b']
  else if c = '\t' then ['\\', 't']
  else if c = '\n' then ['\\', 'n']
  else if c = '\x0c' then ['\\', 'f']
  else if c = '\r' then ['\\', 'r']
  else if c.toNat < 0x20 then
    '\\' :: 'u' :: '0' :: '0' :: hexDigitChar (c.toNat / 16) :: [hexDigitChar (c.toNat % 16)]
  else [c]

/-- JSON escaping of a whole string body. -/
def escapeList : List Char → List Char
  | [] => []
  | c :: cs => escapeCharJSON c ++ escapeList cs

/-- A JSON string literal: quoted, escaped body. -/
def quoteJSON (s : List Char) : List Char :=
  '"' :: escapeList s ++ ['"']

mutual

/-- Model of `JSON.stringify` restricted to `RawValue` (see the module
conventions): compact RFC 8259 output, numbers printed as decimal
integers. -/
def stringifyVal : RawValue → List Char
  | .null => "null".toList
  | .bool true => "true".toList
  | .bool false => "false".toList
  | .num n => intToChars n
  | .str s => quoteJSON s
  | .arr [] => ['[', ']']
  | .arr (e :: es) => '[' :: (stringifyVal e ++ stringifyElemsRest es) ++ [']']
  | .obj [] => ['{', '}']
  | .obj ((k, v) :: fs) =>
      '{' :: (quoteJSON k ++ ':' :: stringifyVal v ++ stringifyFieldsRest fs) ++ ['}']

/-- The `,`-separated continuation of a JSON array body. -/
def stringifyElemsRest : List RawValue → List Char
  | [] => []
  | e :: es => ',' :: stringifyVal e ++ stringifyElemsRest es

/-- The `,`-separated continuation of a JSON object body. -/
def stringifyFieldsRest : List (List Char × RawValue) → List Char
  | [] => []
  | (k, v) :: fs => ',' :: quoteJSON k ++ ':' :: stringifyVal v ++ stringifyFieldsRest fs

end

/-! ## JSON parsing (model of `JSON.parse`)

`Serializable.fromJSON` and `unmarshal` call the platform's `JSON.parse`.
Modelled from the spec: "`unmarshal(text) → value`: parses text back into a
structured value; fails ... on malformed text" — a recursive-descent RFC 8259
parser (with numbers restricted to the decimal integers representable in the
model, and string escapes restricted to Unicode scalar values).  A failure
models the `SyntaxError` that `JSON.parse` throws. -/

/-- Skip JSON whitespace. -/
def skipWs (s : List Char) : List Char :=
  s.dropWhile isJsonWs

/-- Decode a `\\uXXXX` escape: four hex digits, rejecting surrogate code
points (see the module conventions), yielding the character and the
remaining input. -/
def parseUEsc : List Char → Option (Char × List Char)
  | h1 :: h2 :: h3 :: h4 :: r =>
    if isHexDigitChar h1 && isHexDigitChar h2 && isHexDigitChar h3 && isHexDigitChar h4 then
      if 0xd800 ≤ ((hexVal h1 * 16 + hexVal h2) * 16 + hexVal h3) * 16 + hexVal h4 ∧
          ((hexVal h1 * 16 + hexVal h2) * 16 + hexVal h3) * 16 + hexVal h4 < 0xe000 then
        none
      else some (Char.ofNat (((hexVal h1 * 16 + hexVal h2) * 16 + hexVal h3) * 16 + hexVal h4), r)
    else none
  | _ => none

/-- Decode one string escape (the part after the backslash), yielding the
escaped character and the remaining input. -/
def parseEsc : List Char → Option (Char × List Char)
  | [] => none
  | e :: r1 =>
    if e = '"' ∨ e = '\\' ∨ e = '/' then some (e, r1)
    else if e = 'b' then some ('\x08', r1)
    else if e = 'f' then some ('\x0c', r1)
    else if e = 'n' then some ('\n', r1)
    else if e = 'r' then some ('\r', r1)
    else if e = 't' then some ('\t', r1)
    else if e = 'u' then parseUEsc r1
    else none

/-- Parse the body of a JSON string literal (everything after the opening
quote), returning the decoded characters and the input after the closing
quote.  Fuel-based recursion; every step consumes at least one input
character, so the wrapper's fuel of `length + 1` can never run out. -/
def parseStringBodyF : Nat → List Char → Except Unit (List Char × List Char)
  | 0, _ => .error ()
  | _ + 1, [] => .error ()
  | fuel + 1, c :: r =>
    if c = '"' then .ok ([], r)
    else if c = '\\' then
      match parseEsc r with
      | some (ch, r2) => (parseStringBodyF fuel r2).map (fun p => (ch :: p.1, p.2))
      | none => .error ()
    else if c.toNat < 0x20 then .error ()
    else (parseStringBodyF fuel r).map (fun p => (c :: p.1, p.2))

/-- Parse the body of a JSON string literal. -/
def parseStringBody (r : List Char) : Except Unit (List Char × List Char) :=
  parseStringBodyF (r.length + 1) r

/-- Decimal value of a maximal digit prefix, with the remaining input;
fails on an empty digit prefix. -/
def parseNumCore (s : List Char) : Except Unit (Nat × List Char) :=
  if (s.takeWhile isDigitChar).isEmpty then .error ()
  else .ok ((s.takeWhile isDigitChar).foldl (fun a c => a * 10 + (c.toNat - '0'.toNat)) 0,
    s.drop (s.takeWhile isDigitChar).length)

/-- Parse a JSON number (restricted to optionally-signed decimal integers;
see the module conventions). -/
def parseNumber (s : List Char) : Except Unit (RawValue × List Char) :=
  if s.head? = some '-' then
    (parseNumCore s.tail).map (fun p => (.num (-(p.1 : Int)), p.2))
  else
    (parseNumCore s).map (fun p => (.num ((p.1 : Nat) : Int), p.2))

mutual

/-- Parse one JSON value (fuel-based recursion; `jsonParse` supplies enough
fuel for its input). -/
def parseVal : Nat → List Char → Except Unit (RawValue × List Char)
  | 0, _ => .error ()
  | fuel + 1, s =>
    match skipWs s with
    | [] => .error ()
    | c :: r =>
      if c = 'n' then
        match r with
        | 'u' :: 'l' :: 'l' :: r1 => .ok (.null, r1)
        | _ => .error ()
      else if c = 't' then
        match r with
        | 'r' :: 'u' :: 'e' :: r1 => .ok (.bool true, r1)
        | _ => .error ()
      else if c = 'f' then
        match r with
        | 'a' :: 'l' :: 's' :: 'e' :: r1 => .ok (.bool false, r1)
        | _ => .error ()
      else if c = '"' then
        (parseStringBody r).map (fun p => (.str p.1, p.2))
      else if c = '[' then
        let r1 := skipWs r
        if r1.head? = some ']' then .ok (.arr [], r1.tail)
        else (parseElems fuel r1).map (fun p => (.arr p.1, p.2))
      else if c = '{' then
        let r1 := skipWs r
        if r1.head? = some '}' then .ok (.obj [], r1.tail)
        else (parseFields fuel r1).map (fun p => (.obj p.1, p.2))
      else if c = '-' ∨ isDigitChar c then parseNumber (c :: r)
      else .error ()

/-- Parse the non-empty element list of a JSON array, consuming the closing
`]`. -/
def parseElems : Nat → List Char → Except Unit (List RawValue × List Char)
  | 0, _ => .error ()
  | fuel + 1, s =>
    match parseVal fuel s with
    | .error e => .error e
    | .ok (v, r) =>
      if (skipWs r).head? = some ',' then
        (parseElems fuel (skipWs (skipWs r).tail)).map (fun p => (v :: p.1, p.2))
      else if (skipWs r).head? = some ']' then .ok ([v], (skipWs r).tail)
      else .error ()

/-- Parse the non-empty field list of a JSON object, consuming the closing
`}`. -/
def parseFields : Nat → List Char → Except Unit (List (List Char × RawValue) × List Char)
  | 0, _ => .error ()
  | fuel + 1, s =>
    if s.head? = some '"' then
      match parseStringBody s.tail with
      | .error e => .error e
      | .ok (k, r1) =>
        if (skipWs r1).head? = some ':' then
          match parseVal fuel (skipWs r1).tail with
          | .error e => .error e
          | .ok (v, r3) =>
            if (skipWs r3).head? = some ',' then
              (parseFields fuel (skipWs (skipWs r3).tail)).map (fun p => ((k, v) :: p.1, p.2))
            else if (skipWs r3).head? = some '}' then .ok ([(k, v)], (skipWs r3).tail)
            else .error ()
        else .error ()
    else .error ()

end

/-- Model of `JSON.parse`: parse one JSON value, require only whitespace to
remain, and signal the raw `SyntaxError` on any failure. -/
def jsonParse (s : List Char) : Except ErrKind RawValue :=
  match parseVal (s.length + 1) s with
  | .ok (v, rest) => if skipWs rest = [] then .ok v else .error .rawParseError
  | .error _ => .error .rawParseError

/-- `marshal` (encoding.ts line 157): `JSON.stringify` wrapped in a
`try`/`catch` that re-throws as `EncodingError`.  On `RawValue` inputs the
stringifier cannot throw (no cycles, no BigInt), so the model is total. -/
def marshal (obj : RawValue) : List Char :=
  stringifyVal obj

/-- `unmarshal` (encoding.ts line 168): `JSON.parse` wrapped in a
`try`/`catch` that re-throws the parse error as `EncodingError`. -/
def unmarshal (str : List Char) : Except ErrKind RawValue :=
  match jsonParse str with
  | .ok v => .ok v
  | .error _ => .error .encodingError

/-! ## UTF-8 codec (model of `TextEncoder` / `TextDecoder`)

`stringToBytes` (encoding.ts line 203) is `new TextEncoder().encode(str)` and
`bytesToString` (line 214) is `new TextDecoder("utf-8").decode(bytes)`, each
wrapped in a `try`/`catch` that re-throws as `EncodingError`.  Modelled from
the spec: "`stringToBytes(text) → bytes` / `bytesToString(bytes) → text`:
UTF-8 codec; fails with `EncodingError` on invalid byte sequences for the
requested encoding". -/

/-- Standard UTF-8 encoding of one Unicode scalar value. -/
def utf8EncodeChar (c : Char) : List Nat :=
  if c.toNat < 0x80 then [c.toNat]
  else if c.toNat < 0x800 then [0xc0 + c.toNat / 64, 0x80 + c.toNat % 64]
  else if c.toNat < 0x10000 then
    [0xe0 + c.toNat / 4096, 0x80 + (c.toNat / 64) % 64, 0x80 + c.toNat % 64]
  else
    [0xf0 + c.toNat / 262144, 0x80 + (c.toNat / 4096) % 64,
      0x80 + (c.toNat / 64) % 64, 0x80 + c.toNat % 64]

/-- `stringToBytes`: UTF-8 encode (total on well-formed strings, which is the
whole model domain). -/
def stringToBytes (s : List Char) : List Nat :=
  (s.map utf8EncodeChar).flatten

/-- A UTF-8 continuation byte, `0x80`–`0xbf`. -/
def isCont (b : Nat) : Bool :=
  0x80 ≤ b && b < 0xc0

/-- Multi-byte step of UTF-8 decoding, two-byte form: continuation byte and
overlong check, yielding the code point and the remaining input. -/
def utf8Step2 (b : Nat) : List Nat → Option (Nat × List Nat)
  | b2 :: r =>
    if isCont b2 then
      if (b - 0xc0) * 64 + (b2 - 0x80) < 0x80 then none
      else some ((b - 0xc0) * 64 + (b2 - 0x80), r)
    else none
  | _ => none

/-- Multi-byte step of UTF-8 decoding, three-byte form: continuation bytes,
overlong and surrogate checks. -/
def utf8Step3 (b : Nat) : List Nat → Option (Nat × List Nat)
  | b2 :: b3 :: r =>
    if isCont b2 && isCont b3 then
      if ((b - 0xe0) * 64 + (b2 - 0x80)) * 64 + (b3 - 0x80) < 0x800 ∨
          (0xd800 ≤ ((b - 0xe0) * 64 + (b2 - 0x80)) * 64 + (b3 - 0x80) ∧
            ((b - 0xe0) * 64 + (b2 - 0x80)) * 64 + (b3 - 0x80) < 0xe000) then none
      else some (((b - 0xe0) * 64 + (b2 - 0x80)) * 64 + (b3 - 0x80), r)
    else none
  | _ => none

/-- Multi-byte step of UTF-8 decoding, four-byte form: continuation bytes,
overlong and range checks. -/
def utf8Step4 (b : Nat) : List Nat → Option (Nat × List Nat)
  | b2 :: b3 :: b4 :: r =>
    if isCont b2 && isCont b3 && isCont b4 then
      if (((b - 0xf0) * 64 + (b2 - 0x80)) * 64 + (b3 - 0x80)) * 64 + (b4 - 0x80) < 0x10000 ∨
          0x110000 ≤ (((b - 0xf0) * 64 + (b2 - 0x80)) * 64 + (b3 - 0x80)) * 64 + (b4 - 0x80) then
        none
      else some ((((b - 0xf0) * 64 + (b2 - 0x80)) * 64 + (b3 - 0x80)) * 64 + (b4 - 0x80), r)
    else none
  | _ => none

/-- Dispatch on a non-ASCII lead byte: rejects bare continuation bytes and
invalid lead bytes, otherwise decodes the appropriate multi-byte form. -/
def utf8Step (b : Nat) (rest : List Nat) : Option (Nat × List Nat) :=
  if b < 0xc0 then none
  else if b < 0xe0 then utf8Step2 b rest
  else if b < 0xf0 then utf8Step3 b rest
  else if b < 0xf8 then utf8Step4 b rest
  else none

/-- Standard UTF-8 decoding; rejects truncated sequences, bad lead or
continuation bytes, overlong forms, surrogates and out-of-range code
points.  Fuel-based recursion; every step consumes at least one byte, so
`bytesToString`'s fuel of `length + 1` can never run out. -/
def utf8DecodeF : Nat → List Nat → Except ErrKind (List Char)
  | 0, _ => .error .encodingError
  | _ + 1, [] => .ok []
  | fuel + 1, b :: rest =>
    if b < 0x80 then (utf8DecodeF fuel rest).map (fun cs => Char.ofNat b :: cs)
    else
      match utf8Step b rest with
      | some (v, rest2) => (utf8DecodeF fuel rest2).map (fun cs => Char.ofNat v :: cs)
      | none => .error .encodingError

/-- `bytesToString`: UTF-8 decode, failures surfaced as `EncodingError`. -/
def bytesToString (bytes : List Nat) : Except ErrKind (List Char) :=
  utf8DecodeF (bytes.length + 1) bytes

/-! ## Hexadecimal codec (`hexToBytes` / `bytesToHex`)

These model encoding.ts lines 248–274 faithfully, including the platform
semantics of the built-ins they call:

* `parseInt(str, 16)` (ECMAScript `%parseInt%`): skips leading whitespace,
  accepts an optional sign, strips an optional `0x`/`0X` prefix, then reads
  the longest hexadecimal digit prefix; an empty digit string yields NaN
  (modelled as `none`).
* `new Uint8Array(str.length / 2)` with an odd `str.length`: since ES2017,
  `ToIndex` truncates the fractional length, so the allocation succeeds with
  `⌊length / 2⌋` elements and the trailing character is silently dropped
  (no `RangeError` is thrown).
* a `Uint8Array` element store applies `ToUint8`: NaN becomes `0`, other
  values are reduced modulo 256.

Consequently nothing inside the `try` block of `hexToBytes` can throw, and
the model is a total function. -/

/-- Model of ECMAScript `parseInt(s, 16)`; `none` is NaN. -/
def parseIntHex (s : List Char) : Option Int :=
  let s1 := s.dropWhile isJsWs
  let (sign, s2) : Int × List Char := match s1 with
    | '-' :: t => (-1, t)
    | '+' :: t => (1, t)
    | _ => (1, s1)
  let s3 := match s2 with
    | '0' :: x :: t => if x = 'x' ∨ x = 'X' then t else '0' :: x :: t
    | _ => s2
  let ds := s3.takeWhile isHexDigitChar
  if ds.isEmpty then none
  else some (sign * (ds.foldl (fun a c => a * 16 + hexVal c) 0 : Nat))

/-- ECMAScript `ToUint8` applied to a `parseInt` result: NaN becomes 0,
integers are reduced modulo 256. -/
def jsToUint8 : Option Int → Nat
  | none => 0
  | some z => (z.emod 256).toNat

/-- `hexToBytes` (encoding.ts line 248): allocate `⌊length / 2⌋` bytes and
fill byte `i` from `parseInt(str.substring(2 * i, 2 * i + 2), 16)`. -/
def hexToBytes (str : List Char) : List Nat :=
  (List.range (str.length / 2)).map
    (fun i => jsToUint8 (parseIntHex ((str.drop (2 * i)).take 2)))

/-- One byte printed by `bytesToHex`'s loop body: `b.toString(16)`,
zero-padded to two characters when it has only one. -/
def byteToHexJS (b : Nat) : List Char :=
  let s := if b < 16 then [hexDigitChar b]
    else [hexDigitChar (b / 16 % 16), hexDigitChar (b % 16)]
  if s.length = 1 then '0' :: s else s

/-- `bytesToHex` (encoding.ts line 263): left fold appending each byte's
two-character representation.  (`b.toString(16)` is modelled for `b < 256`,
the invariant of `Uint8Array` elements.) -/
def bytesToHex (bytes : List Nat) : List Char :=
  bytes.foldl (fun str b => str ++ byteToHexJS b) []

/-! ## `concatBytes` -/

/-- `TypedArray.prototype.set(arr, offset)` on the list model: overwrite
`arr.length` elements of `res` starting at `offset` (the source guarantees
`offset + arr.length ≤ res.length`). -/
def typedSet (res : List Nat) (arr : List Nat) (offset : Nat) : List Nat :=
  res.take offset ++ arr ++ res.drop (offset + arr.length)

/-- `concatBytes` (encoding.ts line 293): sum the lengths, allocate a
zero-filled result, then copy each input at its running offset. -/
def concatBytes (arrs : List (List Nat)) : List Nat :=
  let length := arrs.foldl (fun len arr => len + arr.length) 0
  let res := List.replicate length 0
  (arrs.foldl (fun (st : List Nat × Nat) arr =>
    (typedSet st.1 arr st.2, st.2 + arr.length)) (res, 0)).1

/-! ## The `Serializable` entity model

A `Serializable` instance is its ordered list of own enumerable properties.
A property value is either plain data (`prim`), a nested `Serializable`
instance (`entity`), or a JavaScript array whose elements are plain data or
nested instances (`array`) — exactly the shapes `Serializable.toRaw`
distinguishes (`val instanceof Serializable`, `Array.isArray(val)`, and the
pass-through default).  A plain nested array with no `Serializable` inside is
plain data (`prim (RawValue.arr _)`); arrays of arrays containing live
instances are outside the model, as are property values `JSON.stringify`
cannot represent (`undefined`, functions, NaN). -/

mutual

/-- A property value of a live `Serializable` instance. -/
inductive Value where
  | prim (v : RawValue)
  | entity (e : SEntity)
  | array (elems : List Elem)

/-- An element of an array-valued property. -/
inductive Elem where
  | prim (v : RawValue)
  | entity (e : SEntity)

/-- A live `Serializable` instance: its own enumerable properties in
insertion order. -/
inductive SEntity where
  | mk (props : List (List Char × Value))

end

/-- The property list of an instance. -/
def SEntity.props : SEntity → List (List Char × Value)
  | .mk ps => ps

/-- The source's private-name convention: `prop.startsWith("_")`
(encoding.ts line 79). -/
def isPrivateName (k : List Char) : Bool :=
  match k with
  | '_' :: _ => true
  | _ => false

mutual

/-- The loop body of `Serializable.toRaw` (encoding.ts lines 78–90) over the
property list: skip private-prefixed and excluded names (`continue`),
recurse into nested instances with `val.toRaw()` — note: no arguments, so an
empty exclusion list — map over arrays converting only `Serializable`
elements, and copy everything else unchanged. -/
def toRawProps : List (List Char × Value) → List (List Char) → List (List Char × RawValue)
  | [], _ => []
  | (k, v) :: rest, exclude =>
    if isPrivateName k || exclude.contains k then toRawProps rest exclude
    else (k, serializeVal v) :: toRawProps rest exclude

/-- Serialization of one property value by `toRaw`'s loop body. -/
def serializeVal : Value → RawValue
  | .prim v => v
  | .entity (.mk ps) => .obj (toRawProps ps [])
  | .array es => .arr (serializeElems es)

/-- Serialization of the elements of an array-valued property:
`val.map((each) => (each instanceof Serializable ? each.toRaw() : each))`. -/
def serializeElems : List Elem → List RawValue
  | [] => []
  | .prim v :: es => v :: serializeElems es
  | .entity (.mk ps) :: es => .obj (toRawProps ps []) :: serializeElems es

end

/-- `Serializable.toRaw(exclude = [])` (encoding.ts line 76). -/
def toRaw (e : SEntity) (exclude : List (List Char) := []) : List (List Char × RawValue) :=
  toRawProps e.props exclude

/-- One assignment step of `Object.assign(this, raw)`: setting an existing
key updates it in place (the key keeps its original position); a new key is
appended.  The assigned value is the raw data itself — `fromRaw` "blindly
copies over values", so nested raw objects stay untyped plain data. -/
def setProp (props : List (List Char × Value)) (k : List Char) (v : Value) :
    List (List Char × Value) :=
  if props.any (fun q => q.1 = k) then
    props.map (fun q => if q.1 = k then (k, v) else q)
  else props ++ [(k, v)]

/-- `Object.assign(this, raw)` (encoding.ts line 105): copy every own
enumerable key of `raw` — private-prefixed or not — onto the instance, in
order. -/
def assign (e : SEntity) (raw : List (List Char × RawValue)) : SEntity :=
  .mk (raw.foldl (fun ps kv => setProp ps kv.1 (.prim kv.2)) e.props)

/-- The own enumerable key/value pairs `Object.assign` reads from a parsed
JSON value: an object contributes its fields; an array contributes its
indexed elements under decimal string keys; a string contributes its
characters under decimal string keys; other primitives contribute nothing. -/
def assignablePairs : RawValue → List (List Char × RawValue)
  | .obj fs => fs
  | .arr es => es.enum.map (fun p => (natDigits p.1, p.2))
  | .str s => s.enum.map (fun p => (natDigits p.1, RawValue.str [p.2]))
  | _ => []

/-- A `validate` implementation.  The base class's `validate` returns `true`;
subclasses may return `false` or throw (`none` models a thrown exception,
which `fromRaw`'s `catch` swallows). -/
def Validator : Type := SEntity → Option Bool

/-- `Serializable.validate` of the base class itself (encoding.ts line 63):
always `true`, never throws. -/
def baseValidate : Validator := fun _ => some true

/-- `Serializable.fromRaw(raw)` (encoding.ts lines 104–115): mutate the
instance with `Object.assign`, then run `validate()` inside `try`/`catch`;
a `false` result or a thrown exception becomes `Err(ENCODING_ERROR)`.
The result is the instance's final property state paired with the thrown
error, if any — the state is the mutated one even on the error path (the
source does not roll back). -/
def fromRaw (validate : Validator) (e : SEntity) (raw : List (List Char × RawValue)) :
    SEntity × Option ErrKind :=
  (assign e raw,
    match validate (assign e raw) with
    | some true => none
    | _ => some .encodingError)

/-- `Serializable.toJSON()` (encoding.ts line 120): `JSON.stringify(this.toRaw())`. -/
def toJSON (e : SEntity) : List Char :=
  stringifyVal (.obj (toRaw e))

/-- `Serializable.fromJSON(json)` (encoding.ts line 127):
`this.fromRaw(JSON.parse(json))` — note that `JSON.parse` is called directly,
with no `try`/`catch`, so a parse failure propagates as the raw
`SyntaxError` and the instance is left unchanged. -/
def fromJSON (validate : Validator) (e : SEntity) (json : List Char) :
    SEntity × Option ErrKind :=
  match jsonParse json with
  | .error _ => (e, some .rawParseError)
  | .ok r => fromRaw validate e (assignablePairs r)

/-- `Serializable.toBytes()` (encoding.ts line 134): `stringToBytes(this.toJSON())`. -/
def toBytes (e : SEntity) : List Nat :=
  stringToBytes (toJSON e)

/-- `Serializable.fromBytes(bytes)` (encoding.ts line 141):
`this.fromJSON(bytesToString(bytes))`; a `bytesToString` failure is an
`EncodingError` thrown before the instance is touched. -/
def fromBytes (validate : Validator) (e : SEntity) (bytes : List Nat) :
    SEntity × Option ErrKind :=
  match bytesToString bytes with
  | .error err => (e, some err)
  | .ok s => fromJSON validate e s

/-- The claim's reading of `fromJSON` ("`fromJSON(text) → entity`:
`fromRaw(unmarshal(text))`"), stated from the spec's words for comparison
with the source's `fromJSON`: the parse failure passes through `unmarshal`
and is therefore surfaced as `EncodingError`. -/
def fromJSONPerSpec (validate : Validator) (e : SEntity) (json : List Char) :
    SEntity × Option ErrKind :=
  match unmarshal json with
  | .error err => (e, some err)
  | .ok r => fromRaw validate e (assignablePairs r)

/-! ## Lemmas: `concatBytes` -/

theorem foldl_length_eq (arrs : List (List Nat)) (n : Nat) :
    arrs.foldl (fun len arr => len + arr.length) n = n + (arrs.map List.length).sum := by
  induction arrs generalizing n with
  | nil => simp
  | cons a rest ih => simp [List.foldl_cons, ih]; omega

theorem typedSet_at_end (pre a : List Nat) (s : Nat) :
    typedSet (pre ++ List.replicate (a.length + s) 0) a pre.length =
      pre ++ a ++ List.replicate s 0 := by
  unfold typedSet
  rw [List.take_left, show pre.length + a.length = pre.length + a.length from rfl,
    List.drop_append, List.drop_replicate]
  simp

theorem concat_fold_spec (arrs : List (List Nat)) (pre : List Nat) :
    (arrs.foldl (fun (st : List Nat × Nat) arr =>
        (typedSet st.1 arr st.2, st.2 + arr.length))
      (pre ++ List.replicate ((arrs.map List.length).sum) 0, pre.length)).1 =
      pre ++ arrs.flatten := by
  induction arrs generalizing pre with
  | nil => simp
  | cons a rest ih =>
    have h1 : ((a :: rest).map List.length).sum = a.length + ((rest.map List.length).sum) := by
      simp
    rw [h1, List.foldl_cons]
    have h2 : typedSet (pre ++ List.replicate (a.length + (rest.map List.length).sum) 0)
        a pre.length = (pre ++ a) ++ List.replicate ((rest.map List.length).sum) 0 := by
      rw [typedSet_at_end]
    rw [show (pre ++ List.replicate (a.length + (rest.map List.length).sum) 0, pre.length) =
      (pre ++ List.replicate (a.length + (rest.map List.length).sum) 0, pre.length) from rfl]
    simp only [h2]
    have h3 : pre.length + a.length = (pre ++ a).length := by simp
    rw [h3]
    rw [ih (pre ++ a)]
    simp [List.append_assoc]

theorem concatBytes_eq_flatten (arrs : List (List Nat)) :
    concatBytes arrs = arrs.flatten := by
  unfold concatBytes
  rw [foldl_length_eq]
  simpa using concat_fold_spec arrs []

/-- C8: `concatBytes` returns the concatenation of its arguments in argument
order; the result length is the exact sum of the input lengths; zero-length
inputs contribute nothing; and with no arguments the result is the empty
sequence. -/
theorem c8_concatBytes_spec (arrs : List (List Nat)) :
    concatBytes arrs = arrs.flatten ∧
    (concatBytes arrs).length = (arrs.map List.length).sum ∧
    concatBytes [] = ([] : List Nat) ∧
    ∀ pre post, concatBytes (pre ++ [] :: post) = concatBytes (pre ++ post) := by
  refine ⟨concatBytes_eq_flatten arrs, ?_, by simp [concatBytes_eq_flatten], ?_⟩
  · rw [concatBytes_eq_flatten]
    simp [List.length_flatten]
  · intro pre post
    rw [concatBytes_eq_flatten, concatBytes_eq_flatten]
    simp

/-! ## Lemmas: the hexadecimal codec -/

set_option maxRecDepth 10000 in
/-- `parseInt(·, 16)` on exactly the two lowercase hex characters produced
for a byte recovers the byte. -/
theorem parseIntHex_pair : ∀ x, x < 256 →
    parseIntHex [hexDigitChar (x / 16), hexDigitChar (x % 16)] = some (x : Int) := by
  decide

set_option maxRecDepth 10000 in
/-- The two-character zero-padded form emitted by `bytesToHex`'s loop body. -/
theorem byteToHexJS_eq : ∀ b, b < 256 →
    byteToHexJS b = [hexDigitChar (b / 16), hexDigitChar (b % 16)] := by
  decide

/-- Every character of a byte's hex form is a lowercase hex digit. -/
theorem byteToHexJS_lower : ∀ b, b < 256 →
    ∀ c ∈ byteToHexJS b, isLowerHexDigitChar c = true := by
  intro b hb c hc
  rw [byteToHexJS_eq b hb] at hc
  have h16 : ∀ d, d < 16 → isLowerHexDigitChar (hexDigitChar d) = true := by decide
  simp only [List.mem_cons, List.not_mem_nil, or_false] at hc
  rcases hc with rfl | rfl
  · exact h16 (b / 16) (by omega)
  · exact h16 (b % 16) (by omega)

/-- `bytesToHex` unfolds to a flat map of two-character chunks. -/
theorem bytesToHex_eq_flatten (bytes : List Nat) :
    bytesToHex bytes = (bytes.map byteToHexJS).flatten := by
  suffices h : ∀ init, bytes.foldl (fun str b => str ++ byteToHexJS b) init =
      init ++ (bytes.map byteToHexJS).flatten by
    simpa using h []
  induction bytes with
  | nil => simp
  | cons b rest ih =>
    intro init
    simp [List.foldl_cons, ih, List.append_assoc]

/-- `hexToBytes` consumes its input two characters at a time. -/
theorem hexToBytes_cons₂ (c1 c2 : Char) (rest : List Char) :
    hexToBytes (c1 :: c2 :: rest) =
      jsToUint8 (parseIntHex [c1, c2]) :: hexToBytes rest := by
  unfold hexToBytes
  have hlen : (c1 :: c2 :: rest).length / 2 = rest.length / 2 + 1 := by
    simp [List.length_cons]
    omega
  rw [hlen, List.range_succ_eq_map, List.map_cons, List.map_map]
  congr 1

/-- C6: hex round-trip.  For byte sequences (element values < 256, the
`Uint8Array` invariant), `hexToBytes (bytesToHex b) = b`, and `bytesToHex`
produces exactly two lowercase zero-padded hex characters per input byte. -/
theorem c6_hex_roundtrip (b : List Nat) (hb : ∀ x ∈ b, x < 256) :
    hexToBytes (bytesToHex b) = b ∧
    (bytesToHex b).length = 2 * b.length ∧
    ∀ c ∈ bytesToHex b, isLowerHexDigitChar c = true := by
  induction b with
  | nil => exact ⟨rfl, rfl, by intro c hc; simp [bytesToHex] at hc⟩
  | cons x xs ih =>
    have hx : x < 256 := hb x (List.mem_cons_self x xs)
    have hxs := ih (fun y hy => hb y (List.mem_cons_of_mem x hy))
    have hcons : bytesToHex (x :: xs) = byteToHexJS x ++ bytesToHex xs := by
      rw [bytesToHex_eq_flatten, bytesToHex_eq_flatten, List.map_cons, List.flatten_cons]
    have hbx := byteToHexJS_eq x hx
    refine ⟨?_, ?_, ?_⟩
    · rw [hcons, hbx]
      simp only [List.cons_append, List.nil_append]
      rw [hexToBytes_cons₂, parseIntHex_pair x hx]
      have hj : jsToUint8 (some (x : Int)) = x := by
        show ((x : Int) % 256).toNat = x
        omega
      rw [hj, hxs.1]
    · rw [hcons]
      simp only [List.length_append, List.length_cons, hxs.2.1, hbx]
      simp
      omega
    · intro c hc
      rw [hcons] at hc
      rcases List.mem_append.mp hc with h | h
      · exact byteToHexJS_lower x hx c h
      · exact hxs.2.2 c h

/-- C6 witness: the round-trip law applied at the concrete byte sequence
`[0, 15, 255, 171]`. -/
theorem c6_hex_roundtrip_witness :
    hexToBytes (bytesToHex [0, 15, 255, 171]) = [0, 15, 255, 171] ∧
    (bytesToHex [0, 15, 255, 171]).length = 2 * 4 := by
  have h := c6_hex_roundtrip [0, 15, 255, 171] (by decide)
  exact ⟨h.1, h.2.1⟩

/-- C3: evaluation of `hexToBytes` at the claim's failing inputs.  The source
never throws here: `"zz"` (even length, non-hex) decodes to the garbage byte
`[0]` because `parseInt("zz", 16)` is NaN and the `Uint8Array` store coerces
NaN to 0; `"abc"` (odd length) silently drops the trailing character and
returns `[0xab]` because `new Uint8Array(3 / 2)` truncates to one element;
`"a"` returns `[]`; and `" f"` (whitespace plus a hex digit) decodes to
`[15]` because `parseInt` skips leading whitespace.  The claim's required
`EncodingError` is never raised (the model of the `try` body is total, so
the `catch` that would produce it is unreachable). -/
theorem c3_hexToBytes_no_error :
    hexToBytes ['z', 'z'] = [0] ∧
    hexToBytes ['a', 'b', 'c'] = [0xab] ∧
    hexToBytes ['a'] = [] ∧
    hexToBytes [' ', 'f'] = [15] := by
  refine ⟨?_, ?_, ?_, ?_⟩ <;> rfl

/-! ## Lemmas: `toRaw` -/

/-- `serializeVal` on a nested instance is that instance's `toRaw` with the
default (empty) exclusion list. -/
theorem serializeVal_entity (e : SEntity) :
    serializeVal (.entity e) = .obj (toRaw e []) := by
  cases e; rfl

/-- `serializeElems` converts exactly the `Serializable` elements, each via
its own `toRaw` with the default (empty) exclusion list. -/
theorem serializeElems_eq_map (es : List Elem) :
    serializeElems es = es.map (fun el =>
      match el with
      | .prim v => v
      | .entity sub => .obj (toRaw sub [])) := by
  induction es with
  | nil => rfl
  | cons el rest ih =>
    cases el with
    | prim v => simp [serializeElems, ih]
    | entity sub => cases sub; simp [serializeElems, ih]; rfl

/-- Every pair emitted by `toRaw`'s loop has a non-private, non-excluded
name. -/
theorem toRawProps_mem_keys (ps : List (List Char × Value)) (ex : List (List Char)) :
    ∀ kv ∈ toRawProps ps ex, isPrivateName kv.1 = false ∧ ex.contains kv.1 = false := by
  induction ps with
  | nil => intro kv h; simp [toRawProps] at h
  | cons p rest ih =>
    intro kv h
    rw [toRawProps] at h
    by_cases hc : (isPrivateName p.1 || ex.contains p.1) = true
    · rw [if_pos (by simpa using hc)] at h
      exact ih kv h
    · rw [if_neg (by simpa using hc)] at h
      simp only [Bool.or_eq_true, not_or, Bool.not_eq_true] at hc
      rcases List.mem_cons.mp h with rfl | h2
      · exact ⟨hc.1, hc.2⟩
      · exact ih kv h2

/-- Every property whose name is neither private nor excluded is emitted by
`toRaw`'s loop, serialized by `serializeVal`. -/
theorem toRawProps_mem_of (ps : List (List Char × Value)) (ex : List (List Char)) :
    ∀ kv ∈ ps, isPrivateName kv.1 = false → ex.contains kv.1 = false →
      (kv.1, serializeVal kv.2) ∈ toRawProps ps ex := by
  induction ps with
  | nil => intro kv h; simp at h
  | cons p rest ih =>
    intro kv h hpriv hex
    rw [toRawProps]
    rcases List.mem_cons.mp h with rfl | h2
    · rw [if_neg (by rw [hpriv, hex]; simp)]
      exact List.mem_cons_self _ _
    · by_cases hc : (isPrivateName p.1 || ex.contains p.1) = true
      · rw [if_pos (by simpa using hc)]
        exact ih kv h2 hpriv hex
      · rw [if_neg (by simpa using hc)]
        exact List.mem_cons_of_mem _ (ih kv h2 hpriv hex)

/-- The names emitted by `toRaw`'s loop are the non-private, non-excluded
property names, in order. -/
theorem toRawProps_keys (ps : List (List Char × Value)) (ex : List (List Char)) :
    (toRawProps ps ex).map Prod.fst =
      (ps.map Prod.fst).filter (fun k => !(isPrivateName k || ex.contains k)) := by
  induction ps with
  | nil => rfl
  | cons p rest ih =>
    rw [toRawProps, List.map_cons, List.filter_cons]
    by_cases hc : (isPrivateName p.1 || ex.contains p.1) = true
    · rw [if_pos (by simpa using hc), ih, hc]
      simp
    · have hcf : (isPrivateName p.1 || ex.contains p.1) = false := by
        simpa using hc
      rw [if_neg (by simpa using hc), List.map_cons, hcf, ih]
      simp

/-- C7: for every entity and exclusion list, `toRaw` emits no property whose
name starts with the private prefix `"_"` and none whose name is excluded,
and emits every other own property (with its serialized value). -/
theorem c7_toRaw_exclusion (e : SEntity) (xs : List (List Char)) :
    (∀ kv ∈ toRaw e xs, isPrivateName kv.1 = false ∧ xs.contains kv.1 = false) ∧
    (∀ kv ∈ e.props, isPrivateName kv.1 = false → xs.contains kv.1 = false →
      (kv.1, serializeVal kv.2) ∈ toRaw e xs) := by
  exact ⟨toRawProps_mem_keys e.props xs, toRawProps_mem_of e.props xs⟩

/-- C7 witness: an entity with a private field `_secret`, a public field
`name`, and a public field `email`, serialized with `email` excluded:
the result contains exactly the `name` pair. -/
theorem c7_toRaw_exclusion_witness :
    (∀ kv ∈ toRaw (SEntity.mk
        [(['_', 's'], Value.prim (RawValue.num 1)),
         (['n', 'a', 'm', 'e'], Value.prim (RawValue.str ['x'])),
         (['e', 'm', 'a', 'i', 'l'], Value.prim (RawValue.str ['y']))])
        [['e', 'm', 'a', 'i', 'l']],
      isPrivateName kv.1 = false ∧ [['e', 'm', 'a', 'i', 'l']].contains kv.1 = false) ∧
    (['n', 'a', 'm', 'e'], RawValue.str ['x']) ∈ toRaw (SEntity.mk
        [(['_', 's'], Value.prim (RawValue.num 1)),
         (['n', 'a', 'm', 'e'], Value.prim (RawValue.str ['x'])),
         (['e', 'm', 'a', 'i', 'l'], Value.prim (RawValue.str ['y']))])
        [['e', 'm', 'a', 'i', 'l']] := by
  have h := c7_toRaw_exclusion (SEntity.mk
        [(['_', 's'], Value.prim (RawValue.num 1)),
         (['n', 'a', 'm', 'e'], Value.prim (RawValue.str ['x'])),
         (['e', 'm', 'a', 'i', 'l'], Value.prim (RawValue.str ['y']))])
        [['e', 'm', 'a', 'i', 'l']]
  exact ⟨h.1, h.2 (['n', 'a', 'm', 'e'], Value.prim (RawValue.str ['x']))
    (by simp [SEntity.props]) rfl rfl⟩

/-- C9: the exclusion list applies only to the entity's own top-level
properties.  A nested `Serializable` property, and every `Serializable`
element of an array property, is serialized with its full unrestricted
`toRaw` — the empty exclusion list — no matter which `xs` the parent was
given. -/
theorem c9_nested_toRaw_unrestricted (e : SEntity) (xs : List (List Char)) (k : List Char) :
    (∀ sub, (k, Value.entity sub) ∈ e.props → isPrivateName k = false →
        xs.contains k = false → (k, RawValue.obj (toRaw sub [])) ∈ toRaw e xs) ∧
    (∀ es, (k, Value.array es) ∈ e.props → isPrivateName k = false →
        xs.contains k = false →
        (k, RawValue.arr (es.map (fun el =>
          match el with
          | Elem.prim v => v
          | Elem.entity sub => RawValue.obj (toRaw sub [])))) ∈ toRaw e xs) := by
  constructor
  · intro sub hmem hpriv hex
    have h := toRawProps_mem_of e.props xs (k, Value.entity sub) hmem hpriv hex
    rwa [serializeVal_entity] at h
  · intro es hmem hpriv hex
    have h := toRawProps_mem_of e.props xs (k, Value.array es) hmem hpriv hex
    have harr : serializeVal (Value.array es) = RawValue.arr (serializeElems es) := rfl
    rwa [harr, serializeElems_eq_map] at h

/-- C9 witness: a parent whose exclusion list names the nested entity's own
field `b` and the array-element entity's own field `c`; both nested entities
are nonetheless serialized in full. -/
theorem c9_nested_toRaw_unrestricted_witness :
    (['s'], RawValue.obj [(['b'], RawValue.num 1)]) ∈
      toRaw (SEntity.mk
        [(['s'], Value.entity (SEntity.mk [(['b'], Value.prim (RawValue.num 1))])),
         (['l'], Value.array [Elem.entity (SEntity.mk [(['c'], Value.prim (RawValue.num 2))])])])
        [['b'], ['c']] ∧
    (['l'], RawValue.arr [RawValue.obj [(['c'], RawValue.num 2)]]) ∈
      toRaw (SEntity.mk
        [(['s'], Value.entity (SEntity.mk [(['b'], Value.prim (RawValue.num 1))])),
         (['l'], Value.array [Elem.entity (SEntity.mk [(['c'], Value.prim (RawValue.num 2))])])])
        [['b'], ['c']] := by
  have h1 := (c9_nested_toRaw_unrestricted (SEntity.mk
        [(['s'], Value.entity (SEntity.mk [(['b'], Value.prim (RawValue.num 1))])),
         (['l'], Value.array [Elem.entity (SEntity.mk [(['c'], Value.prim (RawValue.num 2))])])])
        [['b'], ['c']] ['s']).1
        (SEntity.mk [(['b'], Value.prim (RawValue.num 1))])
        (by simp [SEntity.props]) rfl rfl
  have h2 := (c9_nested_toRaw_unrestricted (SEntity.mk
        [(['s'], Value.entity (SEntity.mk [(['b'], Value.prim (RawValue.num 1))])),
         (['l'], Value.array [Elem.entity (SEntity.mk [(['c'], Value.prim (RawValue.num 2))])])])
        [['b'], ['c']] ['l']).2
        [Elem.entity (SEntity.mk [(['c'], Value.prim (RawValue.num 2))])]
        (by simp [SEntity.props]) rfl rfl
  exact ⟨h1, h2⟩

/-! ## Lemmas: `Object.assign` / `fromRaw` -/

/-- Assigning key `k` makes `(k, v)` an own property. -/
theorem setProp_mem_self (ps : List (List Char × Value)) (k : List Char) (v : Value) :
    (k, v) ∈ setProp ps k v := by
  unfold setProp
  by_cases h : ps.any (fun q => q.1 = k) = true
  · rw [if_pos h]
    rcases List.any_eq_true.mp h with ⟨q, hq, hqk⟩
    simp only [decide_eq_true_eq] at hqk
    exact List.mem_map.mpr ⟨q, hq, by rw [if_pos hqk]⟩
  · rw [if_neg h]
    exact List.mem_append_right _ (List.mem_singleton.mpr rfl)

/-- Assigning a different key preserves an existing own property. -/
theorem setProp_mem_of_ne (ps : List (List Char × Value)) (k : List Char) (v : Value)
    (q : List Char × Value) (hq : q ∈ ps) (hne : q.1 ≠ k) : q ∈ setProp ps k v := by
  unfold setProp
  by_cases h : ps.any (fun p => p.1 = k) = true
  · rw [if_pos h]
    exact List.mem_map.mpr ⟨q, hq, by rw [if_neg hne]⟩
  · rw [if_neg h]
    exact List.mem_append_left _ hq

/-- Properties whose keys are not assigned again survive the rest of an
`Object.assign` run. -/
theorem foldl_setProp_preserve (raw : List (List Char × RawValue))
    (ps : List (List Char × Value)) (q : List Char × Value)
    (hq : q ∈ ps) (hk : q.1 ∉ raw.map Prod.fst) :
    q ∈ (raw.foldl (fun ps kv => setProp ps kv.1 (.prim kv.2)) ps) := by
  induction raw generalizing ps with
  | nil => simpa using hq
  | cons kv rest ih =>
    rw [List.foldl_cons]
    refine ih _ (setProp_mem_of_ne ps kv.1 (.prim kv.2) q hq ?_) ?_
    · intro heq
      exact hk (by rw [List.map_cons]; exact List.mem_cons.mpr (Or.inl heq))
    · intro hmem
      exact hk (by rw [List.map_cons]; exact List.mem_cons.mpr (Or.inr hmem))

/-- When the raw keys are distinct, every raw pair ends up as an own
property after `Object.assign`. -/
theorem foldl_setProp_mem (raw : List (List Char × RawValue))
    (ps : List (List Char × Value)) (hnd : (raw.map Prod.fst).Nodup)
    (k : List Char) (x : RawValue) (hmem : (k, x) ∈ raw) :
    (k, Value.prim x) ∈ (raw.foldl (fun ps kv => setProp ps kv.1 (.prim kv.2)) ps) := by
  induction raw generalizing ps with
  | nil => simp at hmem
  | cons kv rest ih =>
    rw [List.foldl_cons]
    rw [List.map_cons, List.nodup_cons] at hnd
    rcases List.mem_cons.mp hmem with heq | h2
    · subst heq
      exact foldl_setProp_preserve rest _ _ (setProp_mem_self ps k (.prim x)) hnd.1
    · exact ih _ hnd.2 h2

/-- `Object.assign` onto disjoint pre-existing properties appends the raw
pairs (as untyped plain data) in order. -/
theorem foldl_setProp_append (raw : List (List Char × RawValue))
    (ps : List (List Char × Value)) (hnd : (raw.map Prod.fst).Nodup)
    (hdisj : ∀ q ∈ ps, q.1 ∉ raw.map Prod.fst) :
    raw.foldl (fun ps kv => setProp ps kv.1 (.prim kv.2)) ps =
      ps ++ raw.map (fun kv => (kv.1, Value.prim kv.2)) := by
  induction raw generalizing ps with
  | nil => simp
  | cons kv rest ih =>
    rw [List.foldl_cons]
    have hany : ps.any (fun q => q.1 = kv.1) = false := by
      rw [List.any_eq_false]
      intro q hq
      simp only [decide_eq_true_eq]
      intro heq
      exact hdisj q hq (by rw [List.map_cons]; exact List.mem_cons.mpr (Or.inl heq))
    have hset : setProp ps kv.1 (.prim kv.2) = ps ++ [(kv.1, Value.prim kv.2)] := by
      unfold setProp
      rw [if_neg (by simp [hany])]
    rw [hset]
    rw [List.map_cons, List.nodup_cons] at hnd
    rw [ih _ hnd.2 ?_]
    · simp
    · intro q hq
      rcases List.mem_append.mp hq with h | h
      · intro hmem
        exact hdisj q h (by rw [List.map_cons]; exact List.mem_cons.mpr (Or.inr hmem))
      · rw [List.mem_singleton.mp h]
        exact hnd.1

/-- `assign` onto a fresh empty instance yields exactly the raw pairs as
untyped plain data, in order. -/
theorem assign_empty (raw : List (List Char × RawValue))
    (hnd : (raw.map Prod.fst).Nodup) :
    assign (SEntity.mk []) raw =
      SEntity.mk (raw.map (fun kv => (kv.1, Value.prim kv.2))) := by
  unfold assign
  rw [SEntity.props, foldl_setProp_append raw [] hnd (fun q hq => absurd hq (List.not_mem_nil q))]
  simp

/-- The instance state after `fromRaw` is always the assigned state. -/
theorem fromRaw_fst (validate : Validator) (e : SEntity)
    (raw : List (List Char × RawValue)) :
    (fromRaw validate e raw).1 = assign e raw := rfl

/-- `fromRaw` succeeds when `validate` returns `true` on the assigned
state. -/
theorem fromRaw_snd_ok (validate : Validator) (e : SEntity)
    (raw : List (List Char × RawValue))
    (h : validate (assign e raw) = some true) :
    (fromRaw validate e raw).2 = none := by
  unfold fromRaw
  rw [h]

/-- `fromRaw` throws `EncodingError` when `validate` returns `false` or
throws on the assigned state. -/
theorem fromRaw_snd_fail (validate : Validator) (e : SEntity)
    (raw : List (List Char × RawValue))
    (h : validate (assign e raw) ≠ some true) :
    (fromRaw validate e raw).2 = some ErrKind.encodingError := by
  unfold fromRaw
  cases hval : validate (assign e raw) with
  | none => rfl
  | some b =>
    cases b with
    | true => exact absurd hval h
    | false => rfl

/-- C2: `fromRaw` either returns an instance on which `validate()` returned
`true`, or throws `EncodingError`; in particular, whenever `validate()`
returns `false` or itself throws (`none`), `fromRaw` throws `EncodingError`
rather than returning a structurally invalid instance. -/
theorem c2_fromRaw_validation_gate (validate : Validator) (e : SEntity)
    (raw : List (List Char × RawValue)) :
    ((fromRaw validate e raw).2 = none →
      validate (fromRaw validate e raw).1 = some true) ∧
    (validate (assign e raw) ≠ some true →
      (fromRaw validate e raw).2 = some ErrKind.encodingError) := by
  constructor
  · intro hok
    rw [fromRaw_fst]
    by_contra hne
    rw [fromRaw_snd_fail validate e raw hne] at hok
    exact Option.noConfusion hok
  · exact fromRaw_snd_fail validate e raw

/-- C2 witness: with a `validate` that returns `false`, `fromRaw` throws
`EncodingError`; with the base class's always-true `validate`, the returned
instance passes `validate`. -/
theorem c2_fromRaw_validation_gate_witness :
    (fromRaw (fun _ => some false) (SEntity.mk []) []).2 = some ErrKind.encodingError ∧
    baseValidate (fromRaw baseValidate (SEntity.mk []) []).1 = some true := by
  constructor
  · exact (c2_fromRaw_validation_gate (fun _ => some false) (SEntity.mk []) []).2
      (fun h => by simp at h)
  · exact (c2_fromRaw_validation_gate baseValidate (SEntity.mk []) []).1 rfl

/-- C5: when `fromRaw` throws, the instance has already been mutated by the
`Object.assign` of the unvalidated raw fields — the state on the error path
is `assign e raw`, not the pre-call state; moreover (for distinct raw keys)
every raw pair is present on the failed instance as an own property. -/
theorem c5_fromRaw_partial_write (validate : Validator) (e : SEntity)
    (raw : List (List Char × RawValue)) (err : ErrKind)
    (_hfail : (fromRaw validate e raw).2 = some err) :
    (fromRaw validate e raw).1 = assign e raw ∧
    ((raw.map Prod.fst).Nodup →
      ∀ kv ∈ raw, (kv.1, Value.prim kv.2) ∈ (fromRaw validate e raw).1.props) := by
  have hstate := fromRaw_fst validate e raw
  refine ⟨hstate, fun hnd kv hkv => ?_⟩
  rw [hstate]
  unfold assign
  rw [SEntity.props]
  exact foldl_setProp_mem raw e.props hnd kv.1 kv.2 hkv

/-- C5 witness: a failing `fromRaw` on an instance whose property `a` was
`1` leaves the instance mutated, with `a` overwritten by the unvalidated raw
value `2`. -/
theorem c5_fromRaw_partial_write_witness :
    (fromRaw (fun _ => some false) (SEntity.mk [(['a'], Value.prim (RawValue.num 1))])
        [(['a'], RawValue.num 2)]).1 =
      assign (SEntity.mk [(['a'], Value.prim (RawValue.num 1))]) [(['a'], RawValue.num 2)] ∧
    (['a'], Value.prim (RawValue.num 2)) ∈
      (fromRaw (fun _ => some false) (SEntity.mk [(['a'], Value.prim (RawValue.num 1))])
        [(['a'], RawValue.num 2)]).1.props := by
  have h := c5_fromRaw_partial_write (fun _ => some false)
    (SEntity.mk [(['a'], Value.prim (RawValue.num 1))])
    [(['a'], RawValue.num 2)] ErrKind.encodingError rfl
  exact ⟨h.1, h.2 (by simp) (['a'], RawValue.num 2) (List.mem_singleton.mpr rfl)⟩

/-- C10: `fromRaw` copies every key of the raw mapping onto the instance —
private-prefixed keys included.  For distinct raw keys, a successful
`fromRaw` leaves each raw pair, such as one keyed `"_x"`, as an own
property of the instance (holding the raw value as untyped plain data). -/
theorem c10_fromRaw_copies_private (validate : Validator) (e : SEntity)
    (raw : List (List Char × RawValue)) (hnd : (raw.map Prod.fst).Nodup)
    (k : List Char) (x : RawValue) (hmem : (k, x) ∈ raw)
    (_hok : (fromRaw validate e raw).2 = none) :
    (k, Value.prim x) ∈ (fromRaw validate e raw).1.props := by
  rw [fromRaw_fst]
  unfold assign
  rw [SEntity.props]
  exact foldl_setProp_mem raw e.props hnd k x hmem

/-- C10 witness: a raw mapping carrying the private-prefixed key `"_x"`,
restored successfully with the base `validate`, leaves `_x` set on the
instance — even though `toRaw` of that instance never emits `_x`. -/
theorem c10_fromRaw_copies_private_witness :
    (['_', 'x'], Value.prim (RawValue.num 7)) ∈
      (fromRaw baseValidate (SEntity.mk []) [(['_', 'x'], RawValue.num 7)]).1.props ∧
    toRaw (fromRaw baseValidate (SEntity.mk []) [(['_', 'x'], RawValue.num 7)]).1 [] = [] := by
  constructor
  · exact c10_fromRaw_copies_private baseValidate (SEntity.mk [])
      [(['_', 'x'], RawValue.num 7)] (by simp) ['_', 'x'] (RawValue.num 7)
      (List.mem_singleton.mpr rfl) rfl
  · rfl

/-! ## Lemmas: UTF-8 round trip -/

/-- A `Char` is a Unicode scalar value: below `0x110000` and not a
surrogate. -/
theorem char_valid_ranges (c : Char) :
    c.toNat < 0x110000 ∧ ¬(0xd800 ≤ c.toNat ∧ c.toNat < 0xe000) := by
  have h := c.valid
  have he : c.toNat = c.val.toNat := rfl
  rcases h with h | h
  · rw [he]; exact ⟨by omega, by omega⟩
  · rw [he]; exact ⟨h.2, by omega⟩

set_option maxRecDepth 4096 in
/-- Decoding the UTF-8 bytes of one character prepends that character and
consumes one unit of fuel. -/
theorem utf8DecodeF_encodeChar (c : Char) (bytes : List Nat) (fuel : Nat) :
    utf8DecodeF (fuel + 1) (utf8EncodeChar c ++ bytes) =
      (utf8DecodeF fuel bytes).map (fun cs => c :: cs) := by
  have hv := char_valid_ranges c
  have hc := Char.ofNat_toNat c
  unfold utf8EncodeChar
  by_cases h1 : c.toNat < 0x80
  · rw [if_pos h1]
    simp only [List.cons_append, List.nil_append]
    rw [utf8DecodeF, if_pos h1, hc]
  · rw [if_neg h1]
    by_cases h2 : c.toNat < 0x800
    · rw [if_pos h2]
      simp only [List.cons_append, List.nil_append]
      rw [utf8DecodeF, if_neg (by omega)]
      have hstep : utf8Step (0xc0 + c.toNat / 64) ((0x80 + c.toNat % 64) :: bytes) =
          some (c.toNat, bytes) := by
        unfold utf8Step
        rw [if_neg (by omega), if_pos (by omega), utf8Step2]
        rw [if_pos (by simp only [isCont, Bool.and_eq_true, decide_eq_true_eq]; omega)]
        rw [if_neg (by omega)]
        congr 2
        omega
      simp only [hstep, hc]
    · rw [if_neg h2]
      by_cases h3 : c.toNat < 0x10000
      · rw [if_pos h3]
        simp only [List.cons_append, List.nil_append]
        rw [utf8DecodeF, if_neg (by omega)]
        have hstep : utf8Step (0xe0 + c.toNat / 4096)
            ((0x80 + c.toNat / 64 % 64) :: (0x80 + c.toNat % 64) :: bytes) =
            some (c.toNat, bytes) := by
          unfold utf8Step
          rw [if_neg (by omega), if_neg (by omega), if_pos (by omega), utf8Step3]
          rw [if_pos (by simp only [isCont, Bool.and_eq_true, decide_eq_true_eq]; omega)]
          rw [if_neg (by omega)]
          congr 2
          omega
        simp only [hstep, hc]
      · rw [if_neg h3]
        simp only [List.cons_append, List.nil_append]
        rw [utf8DecodeF, if_neg (by omega)]
        have hstep : utf8Step (0xf0 + c.toNat / 262144)
            ((0x80 + c.toNat / 4096 % 64) :: (0x80 + c.toNat / 64 % 64) ::
              (0x80 + c.toNat % 64) :: bytes) =
            some (c.toNat, bytes) := by
          unfold utf8Step
          rw [if_neg (by omega), if_neg (by omega), if_neg (by omega), if_pos (by omega),
            utf8Step4]
          rw [if_pos (by simp only [isCont, Bool.and_eq_true, decide_eq_true_eq]; omega)]
          rw [if_neg (by omega)]
          congr 2
          omega
        simp only [hstep, hc]

/-- With fuel exceeding the character count, decoding an encoded string
recovers it exactly. -/
theorem utf8DecodeF_roundtrip (s : List Char) (fuel : Nat) (hf : s.length < fuel) :
    utf8DecodeF fuel (stringToBytes s) = .ok s := by
  induction s generalizing fuel with
  | nil =>
    rcases fuel with _ | f
    · omega
    · rw [show stringToBytes [] = [] from rfl, utf8DecodeF]
  | cons c cs ih =>
    rcases fuel with _ | f
    · omega
    · have hsb : stringToBytes (c :: cs) = utf8EncodeChar c ++ stringToBytes cs := by
        unfold stringToBytes
        rw [List.map_cons, List.flatten_cons]
      rw [hsb, utf8DecodeF_encodeChar, ih f (by simpa using hf)]
      rfl

/-- Each character encodes to at least one byte. -/
theorem stringToBytes_length_ge (s : List Char) :
    s.length ≤ (stringToBytes s).length := by
  induction s with
  | nil => simp [stringToBytes]
  | cons c cs ih =>
    have hsb : stringToBytes (c :: cs) = utf8EncodeChar c ++ stringToBytes cs := by
      unfold stringToBytes
      rw [List.map_cons, List.flatten_cons]
    rw [hsb]
    have h1 : 1 ≤ (utf8EncodeChar c).length := by
      unfold utf8EncodeChar
      split
      · simp
      · split
        · simp
        · split <;> simp
    simp only [List.length_append, List.length_cons]
    omega

/-- UTF-8 round trip: `bytesToString (stringToBytes s) = s`. -/
theorem bytesToString_stringToBytes (s : List Char) :
    bytesToString (stringToBytes s) = .ok s := by
  unfold bytesToString
  exact utf8DecodeF_roundtrip s _ (by have := stringToBytes_length_ge s; omega)


/-! ## Lemmas: JSON number round trip -/

/-- No whitespace-or-structure tail interferes with number parsing: the
first character of the remaining input (if any) is not a decimal digit. -/
def numTailOk : List Char → Prop
  | [] => True
  | c :: _ => isDigitChar c = false

theorem decDigitChar_facts : ∀ d, d < 10 →
    isDigitChar (decDigitChar d) = true ∧ (decDigitChar d).toNat - '0'.toNat = d := by
  decide

theorem natDigits_ne_nil (n : Nat) : natDigits n ≠ [] := by
  rw [natDigits]
  by_cases h : n < 10
  · rw [dif_pos h]; simp
  · rw [dif_neg h]; simp

theorem natDigits_digits (n : Nat) : ∀ c ∈ natDigits n, isDigitChar c = true := by
  induction n using Nat.strong_induction_on with
  | _ n ih =>
    rw [natDigits]
    by_cases h : n < 10
    · rw [dif_pos h]
      intro c hc
      rw [List.mem_singleton.mp hc]
      exact (decDigitChar_facts n h).1
    · rw [dif_neg h]
      intro c hc
      rcases List.mem_append.mp hc with h1 | h1
      · exact ih (n / 10) (Nat.div_lt_self (by omega) (by omega)) c h1
      · rw [List.mem_singleton.mp h1]
        exact (decDigitChar_facts (n % 10) (by omega)).1

theorem natDigits_foldl (n : Nat) : ∀ acc,
    (natDigits n).foldl (fun a c => a * 10 + (c.toNat - '0'.toNat)) acc =
      acc * 10 ^ (natDigits n).length + n := by
  induction n using Nat.strong_induction_on with
  | _ n ih =>
    intro acc
    rw [natDigits]
    by_cases h : n < 10
    · rw [dif_pos h]
      simp only [List.foldl_cons, List.foldl_nil, List.length_cons, List.length_nil,
        (decDigitChar_facts n h).2]
      ring
    · rw [dif_neg h]
      rw [List.foldl_append, ih (n / 10) (Nat.div_lt_self (by omega) (by omega)) acc]
      simp only [List.foldl_cons, List.foldl_nil, List.length_append, List.length_cons,
        List.length_nil]
      rw [(decDigitChar_facts (n % 10) (by omega)).2]
      rw [pow_succ]
      have hdm : n / 10 * 10 + n % 10 = n := by omega
      ring_nf
      omega

theorem takeWhile_append_all (p : Char → Bool) (l r : List Char)
    (h : ∀ c ∈ l, p c = true) :
    (l ++ r).takeWhile p = l ++ r.takeWhile p := by
  induction l with
  | nil => simp
  | cons c cs ih =>
    rw [List.cons_append, List.takeWhile_cons, ih (fun x hx => h x (List.mem_cons_of_mem c hx))]
    rw [h c (List.mem_cons_self c cs)]
    simp

theorem takeWhile_head_false (p : Char → Bool) (r : List Char)
    (hr : match r with | [] => True | c :: _ => p c = false) :
    r.takeWhile p = [] := by
  cases r with
  | nil => rfl
  | cons c cs =>
    rw [List.takeWhile_cons]
    simp only at hr
    rw [hr]
    simp

/-- Parsing the printed digits of a natural number recovers it. -/
theorem parseNumCore_natDigits (m : Nat) (rest : List Char) (hrest : numTailOk rest) :
    parseNumCore (natDigits m ++ rest) = .ok (m, rest) := by
  have htw : (natDigits m ++ rest).takeWhile isDigitChar = natDigits m := by
    rw [takeWhile_append_all isDigitChar _ _ (natDigits_digits m),
      takeWhile_head_false isDigitChar rest (by
        cases rest
        · simp [numTailOk]
        · simpa [numTailOk] using hrest)]
    simp
  unfold parseNumCore
  rw [htw, if_neg (by simp [natDigits_ne_nil m])]
  rw [natDigits_foldl m 0, List.drop_left]
  simp

/-- Parsing the printed form of an integer recovers it. -/
theorem parseNumber_intToChars (n : Int) (rest : List Char) (hrest : numTailOk rest) :
    parseNumber (intToChars n ++ rest) = .ok (.num n, rest) := by
  unfold intToChars
  by_cases hn : n < 0
  · rw [if_pos hn]
    unfold parseNumber
    rw [List.cons_append]
    rw [if_pos (by simp)]
    simp only [List.tail_cons]
    rw [parseNumCore_natDigits n.natAbs rest hrest]
    simp only [Except.map]
    have hval : -((n.natAbs : Nat) : Int) = n := by omega
    rw [hval]
  · rw [if_neg hn]
    unfold parseNumber
    obtain ⟨d, ds, hd⟩ : ∃ d ds, natDigits n.toNat = d :: ds := by
      rcases hnd : natDigits n.toNat with _ | ⟨d, ds⟩
      · exact absurd hnd (natDigits_ne_nil n.toNat)
      · exact ⟨d, ds, rfl⟩
    have hdd : isDigitChar d = true := natDigits_digits n.toNat d (by rw [hd]; simp)
    have hne : d ≠ '-' := by
      intro heq
      rw [heq] at hdd
      simp [isDigitChar] at hdd
    rw [hd, List.cons_append]
    rw [if_neg (by simp [hne])]
    rw [← List.cons_append, ← hd, parseNumCore_natDigits n.toNat rest hrest]
    simp only [Except.map]
    have hval : ((n.toNat : Nat) : Int) = n := by omega
    rw [hval]

/-! ## Lemmas: JSON string round trip -/

theorem hexDigitChar_hexVal : ∀ d, d < 16 →
    isHexDigitChar (hexDigitChar d) = true ∧ hexVal (hexDigitChar d) = d := by
  decide

theorem escapeCharJSON_length_pos (c : Char) : 1 ≤ (escapeCharJSON c).length := by
  unfold escapeCharJSON
  split_ifs <;> simp

theorem escapeList_length_ge (s : List Char) : s.length ≤ (escapeList s).length := by
  induction s with
  | nil => simp [escapeList]
  | cons c cs ih =>
    rw [escapeList]
    have := escapeCharJSON_length_pos c
    simp only [List.length_append, List.length_cons]
    omega

/-- With fuel exceeding the decoded length, parsing an escaped string body
up to its closing quote recovers the original characters. -/
theorem parseStringBodyF_quote (s : List Char) (fuel : Nat) (rest : List Char)
    (hf : s.length < fuel) :
    parseStringBodyF fuel (escapeList s ++ '"' :: rest) = .ok (s, rest) := by
  induction s generalizing fuel with
  | nil =>
    rcases fuel with _ | f
    · omega
    · rw [show escapeList [] = [] from rfl, List.nil_append]
      rw [parseStringBodyF, if_pos rfl]
  | cons c cs ih =>
    rcases fuel with _ | f
    · omega
    · have hf2 : cs.length < f := by simpa using hf
      rw [escapeList, List.append_assoc]
      unfold escapeCharJSON
      by_cases hc1 : c = '"'
      · rw [if_pos hc1]
        simp only [List.cons_append, List.nil_append]
        rw [parseStringBodyF, if_neg (by decide), if_pos rfl]
        have hesc : parseEsc ('"' :: (escapeList cs ++ '"' :: rest)) =
            some ('"', escapeList cs ++ '"' :: rest) := rfl
        rw [hesc]
        simp only [ih f hf2, Except.map, hc1]
      · rw [if_neg hc1]
        by_cases hc2 : c = '\\'
        · rw [if_pos hc2]
          simp only [List.cons_append, List.nil_append]
          rw [parseStringBodyF, if_neg (by decide), if_pos rfl]
          have hesc : parseEsc ('\\' :: (escapeList cs ++ '"' :: rest)) =
              some ('\\', escapeList cs ++ '"' :: rest) := rfl
          rw [hesc]
          simp only [ih f hf2, Except.map, hc2]
        · rw [if_neg hc2]
          by_cases hc3 : c = '\x08'
          · rw [if_pos hc3]
            simp only [List.cons_append, List.nil_append]
            rw [parseStringBodyF, if_neg (by decide), if_pos rfl]
            have hesc : parseEsc ('b' :: (escapeList cs ++ '"' :: rest)) =
                some ('\x08', escapeList cs ++ '"' :: rest) := rfl
            rw [hesc]
            simp only [ih f hf2, Except.map, hc3]
          · rw [if_neg hc3]
            by_cases hc4 : c = '\t'
            · rw [if_pos hc4]
              simp only [List.cons_append, List.nil_append]
              rw [parseStringBodyF, if_neg (by decide), if_pos rfl]
              have hesc : parseEsc ('t' :: (escapeList cs ++ '"' :: rest)) =
                  some ('\t', escapeList cs ++ '"' :: rest) := rfl
              rw [hesc]
              simp only [ih f hf2, Except.map, hc4]
            · rw [if_neg hc4]
              by_cases hc5 : c = '\n'
              · rw [if_pos hc5]
                simp only [List.cons_append, List.nil_append]
                rw [parseStringBodyF, if_neg (by decide), if_pos rfl]
                have hesc : parseEsc ('n' :: (escapeList cs ++ '"' :: rest)) =
                    some ('\n', escapeList cs ++ '"' :: rest) := rfl
                rw [hesc]
                simp only [ih f hf2, Except.map, hc5]
              · rw [if_neg hc5]
                by_cases hc6 : c = '\x0c'
                · rw [if_pos hc6]
                  simp only [List.cons_append, List.nil_append]
                  rw [parseStringBodyF, if_neg (by decide), if_pos rfl]
                  have hesc : parseEsc ('f' :: (escapeList cs ++ '"' :: rest)) =
                      some ('\x0c', escapeList cs ++ '"' :: rest) := rfl
                  rw [hesc]
                  simp only [ih f hf2, Except.map, hc6]
                · rw [if_neg hc6]
                  by_cases hc7 : c = '\r'
                  · rw [if_pos hc7]
                    simp only [List.cons_append, List.nil_append]
                    rw [parseStringBodyF, if_neg (by decide), if_pos rfl]
                    have hesc : parseEsc ('r' :: (escapeList cs ++ '"' :: rest)) =
                        some ('\r', escapeList cs ++ '"' :: rest) := rfl
                    rw [hesc]
                    simp only [ih f hf2, Except.map, hc7]
                  · rw [if_neg hc7]
                    by_cases hc8 : c.toNat < 0x20
                    · rw [if_pos hc8]
                      simp only [List.cons_append, List.nil_append]
                      rw [parseStringBodyF, if_neg (by decide), if_pos rfl]
                      have hd1 := hexDigitChar_hexVal (c.toNat / 16) (by omega)
                      have hd2 := hexDigitChar_hexVal (c.toNat % 16) (by omega)
                      rw [parseEsc]
                      rw [if_neg (by decide), if_neg (by decide), if_neg (by decide),
                        if_neg (by decide), if_neg (by decide), if_neg (by decide),
                        if_pos rfl]
                      rw [parseUEsc]
                      rw [if_pos (by
                        simp only [Bool.and_eq_true, hd1.1, hd2.1]
                        decide)]
                      have hcode : ((hexVal '0' * 16 + hexVal '0') * 16 +
                          hexVal (hexDigitChar (c.toNat / 16))) * 16 +
                          hexVal (hexDigitChar (c.toNat % 16)) = c.toNat := by
                        rw [hd1.2, hd2.2]
                        have h0 : hexVal '0' = 0 := by decide
                        rw [h0]
                        omega
                      rw [hcode, if_neg (by omega), Char.ofNat_toNat]
                      simp only [ih f hf2, Except.map]
                    · rw [if_neg hc8]
                      simp only [List.cons_append, List.nil_append]
                      rw [parseStringBodyF, if_neg hc1, if_neg hc2, if_neg hc8]
                      simp only [ih f hf2, Except.map]

/-- Parsing a quoted, escaped string body recovers the original string. -/
theorem parseStringBody_quote (s : List Char) (rest : List Char) :
    parseStringBody (escapeList s ++ '"' :: rest) = .ok (s, rest) := by
  unfold parseStringBody
  apply parseStringBodyF_quote
  have := escapeList_length_ge s
  simp only [List.length_append, List.length_cons]
  omega

/-! ## Lemmas: JSON value round trip -/

theorem skipWs_cons_of_not_ws (c : Char) (r : List Char) (h : isJsonWs c = false) :
    skipWs (c :: r) = c :: r := by
  unfold skipWs
  rw [List.dropWhile_cons, h]
  simp

/-- A decimal digit character is not whitespace, not a structural JSON
character, and not the head of any keyword. -/
theorem digit_head_facts (c : Char) (h : isDigitChar c = true) :
    isJsonWs c = false ∧ c ≠ 'n' ∧ c ≠ 't' ∧ c ≠ 'f' ∧ c ≠ '"' ∧ c ≠ '[' ∧
    c ≠ '{' ∧ c ≠ ']' ∧ c ≠ '}' ∧ c ≠ '-' := by
  refine ⟨?_, ?_, ?_, ?_, ?_, ?_, ?_, ?_, ?_, ?_⟩
  · cases hw : isJsonWs c with
    | false => rfl
    | true =>
      exfalso
      simp only [isJsonWs, Bool.or_eq_true, decide_eq_true_eq] at hw
      rcases hw with ((h1 | h1) | h1) | h1 <;> rw [h1] at h <;> exact absurd h (by decide)
  all_goals intro heq; rw [heq] at h; exact absurd h (by decide)

/-- The first character of any stringified value: never whitespace, never a
closing bracket. -/
theorem stringify_head (v : RawValue) :
    ∃ c r, stringifyVal v = c :: r ∧ isJsonWs c = false ∧ c ≠ ']' ∧ c ≠ '}' := by
  cases v with
  | null =>
    refine ⟨'n', "ull".toList, rfl, ?_, ?_, ?_⟩ <;> decide
  | bool b =>
    cases b
    case false => refine ⟨'f', "alse".toList, rfl, ?_, ?_, ?_⟩ <;> decide
    case true => refine ⟨'t', "rue".toList, rfl, ?_, ?_, ?_⟩ <;> decide
  | num n =>
    by_cases hn : n < 0
    · refine ⟨'-', natDigits n.natAbs, ?_, by decide, by decide, by decide⟩
      rw [show stringifyVal (.num n) = intToChars n from rfl, intToChars, if_pos hn]
    · obtain ⟨d, ds, hd⟩ : ∃ d ds, natDigits n.toNat = d :: ds := by
        rcases hnd : natDigits n.toNat with _ | ⟨d, ds⟩
        · exact absurd hnd (natDigits_ne_nil n.toNat)
        · exact ⟨d, ds, rfl⟩
      have hdd : isDigitChar d = true := natDigits_digits n.toNat d (by rw [hd]; simp)
      have hf := digit_head_facts d hdd
      refine ⟨d, ds, ?_, hf.1, hf.2.2.2.2.2.2.2.1, hf.2.2.2.2.2.2.2.2.1⟩
      rw [show stringifyVal (.num n) = intToChars n from rfl, intToChars, if_neg hn, hd]
  | str s =>
    refine ⟨'"', _, rfl, ?_, ?_, ?_⟩ <;> decide
  | arr es =>
    cases es with
    | nil => refine ⟨'[', _, rfl, ?_, ?_, ?_⟩ <;> decide
    | cons e es2 => refine ⟨'[', _, rfl, ?_, ?_, ?_⟩ <;> decide
  | obj fs =>
    cases fs with
    | nil => refine ⟨'{', _, rfl, ?_, ?_, ?_⟩ <;> decide
    | cons f fs2 =>
      obtain ⟨k, v2⟩ := f
      refine ⟨'{', _, rfl, ?_, ?_, ?_⟩ <;> decide

/-- Every stringified value is non-empty. -/
theorem stringify_length_pos (v : RawValue) : 1 ≤ (stringifyVal v).length := by
  obtain ⟨c, r, heq, -⟩ := stringify_head v
  rw [heq]
  simp

theorem numTailOk_elems (es : List RawValue) (rest : List Char) :
    numTailOk (stringifyElemsRest es ++ ']' :: rest) := by
  cases es with
  | nil => show isDigitChar ']' = false; decide
  | cons e es2 =>
    rw [stringifyElemsRest]
    show isDigitChar ',' = false
    decide

theorem numTailOk_fields (fs : List (List Char × RawValue)) (rest : List Char) :
    numTailOk (stringifyFieldsRest fs ++ '}' :: rest) := by
  cases fs with
  | nil => show isDigitChar '}' = false; decide
  | cons f fs2 =>
    obtain ⟨k, v⟩ := f
    rw [stringifyFieldsRest]
    show isDigitChar ',' = false
    decide

/-- The JSON round-trip workhorse: with fuel at least the output length,
parsing a stringified value (or a stringified array/object continuation)
recovers it exactly. -/
theorem parse_stringify_aux : ∀ fuel : Nat,
    (∀ (v : RawValue) (rest : List Char), (stringifyVal v).length ≤ fuel → numTailOk rest →
      parseVal fuel (stringifyVal v ++ rest) = .ok (v, rest)) ∧
    (∀ (e : RawValue) (es : List RawValue) (rest : List Char),
      (stringifyVal e ++ stringifyElemsRest es).length + 1 ≤ fuel → numTailOk rest →
      parseElems fuel ((stringifyVal e ++ stringifyElemsRest es) ++ ']' :: rest) =
        .ok (e :: es, rest)) ∧
    (∀ (k : List Char) (v : RawValue) (fs : List (List Char × RawValue)) (rest : List Char),
      (quoteJSON k ++ ':' :: stringifyVal v ++ stringifyFieldsRest fs).length + 1 ≤ fuel →
      numTailOk rest →
      parseFields fuel ((quoteJSON k ++ ':' :: stringifyVal v ++ stringifyFieldsRest fs) ++
        '}' :: rest) = .ok ((k, v) :: fs, rest)) := by
  intro fuel
  induction fuel with
  | zero =>
    refine ⟨?_, ?_, ?_⟩
    · intro v rest hlen _
      have := stringify_length_pos v
      omega
    · intro e es rest hlen _
      omega
    · intro k v fs rest hlen _
      omega
  | succ f ih =>
    obtain ⟨ih1, ih2, ih3⟩ := ih
    refine ⟨?_, ?_, ?_⟩
    · -- parseVal on a stringified value
      intro v rest hlen htail
      cases v with
      | null =>
        rw [show stringifyVal .null ++ rest = 'n' :: 'u' :: 'l' :: 'l' :: rest from rfl,
          parseVal]
        simp [skipWs, List.dropWhile_cons, isJsonWs]
      | bool b =>
        cases b with
        | true =>
          rw [show stringifyVal (.bool true) ++ rest = 't' :: 'r' :: 'u' :: 'e' :: rest from rfl,
            parseVal]
          simp [skipWs, List.dropWhile_cons, isJsonWs]
        | false =>
          rw [show stringifyVal (.bool false) ++ rest =
            'f' :: 'a' :: 'l' :: 's' :: 'e' :: rest from rfl, parseVal]
          simp [skipWs, List.dropWhile_cons, isJsonWs]
      | str s =>
        have hshape : stringifyVal (.str s) ++ rest = '"' :: (escapeList s ++ '"' :: rest) := by
          show quoteJSON s ++ rest = _
          unfold quoteJSON
          simp
        rw [hshape, parseVal]
        simp [skipWs, List.dropWhile_cons, isJsonWs, parseStringBody_quote, Except.map]
      | num n =>
        by_cases hn : n < 0
        · have hshape : stringifyVal (.num n) ++ rest = '-' :: (natDigits n.natAbs ++ rest) := by
            show intToChars n ++ rest = _
            rw [intToChars, if_pos hn]
            simp
          have hpn : parseNumber ('-' :: (natDigits n.natAbs ++ rest)) = .ok (.num n, rest) := by
            rw [show '-' :: (natDigits n.natAbs ++ rest) = intToChars n ++ rest by
              rw [intToChars, if_pos hn]; simp]
            exact parseNumber_intToChars n rest htail
          rw [hshape, parseVal]
          simp [skipWs, List.dropWhile_cons, isJsonWs, hpn]
        · obtain ⟨d, ds, hd⟩ : ∃ d ds, natDigits n.toNat = d :: ds := by
            rcases hnd : natDigits n.toNat with _ | ⟨d, ds⟩
            · exact absurd hnd (natDigits_ne_nil n.toNat)
            · exact ⟨d, ds, rfl⟩
          have hdd : isDigitChar d = true := natDigits_digits n.toNat d (by rw [hd]; simp)
          have hf := digit_head_facts d hdd
          have hshape : stringifyVal (.num n) ++ rest = d :: (ds ++ rest) := by
            show intToChars n ++ rest = _
            rw [intToChars, if_neg hn, hd]
            simp
          have hpn : parseNumber (d :: (ds ++ rest)) = .ok (.num n, rest) := by
            rw [show d :: (ds ++ rest) = intToChars n ++ rest by
              rw [intToChars, if_neg hn, hd]; simp]
            exact parseNumber_intToChars n rest htail
          rw [hshape, parseVal]
          simp [skipWs, List.dropWhile_cons, hf.1, hf.2.1, hf.2.2.1, hf.2.2.2.1,
            hf.2.2.2.2.1, hf.2.2.2.2.2.1, hf.2.2.2.2.2.2.1, hdd, hpn]
      | arr es =>
        cases es with
        | nil =>
          rw [show stringifyVal (.arr []) ++ rest = '[' :: ']' :: rest from rfl, parseVal]
          simp [skipWs, List.dropWhile_cons, isJsonWs]
        | cons e es2 =>
          obtain ⟨c1, r1, hc1, hw1, hne1, hne1'⟩ := stringify_head e
          have hshape : stringifyVal (.arr (e :: es2)) ++ rest =
              '[' :: (stringifyVal e ++ (stringifyElemsRest es2 ++ ']' :: rest)) := by
            show ('[' :: (stringifyVal e ++ stringifyElemsRest es2) ++ [']']) ++ rest = _
            simp
          have hr : stringifyVal e ++ (stringifyElemsRest es2 ++ ']' :: rest) =
              c1 :: (r1 ++ (stringifyElemsRest es2 ++ ']' :: rest)) := by
            rw [hc1]
            simp
          have hskip : List.dropWhile isJsonWs
              (stringifyVal e ++ (stringifyElemsRest es2 ++ ']' :: rest)) =
              stringifyVal e ++ (stringifyElemsRest es2 ++ ']' :: rest) := by
            rw [hr, List.dropWhile_cons, hw1]
            simp
          have hhead : (stringifyVal e ++ (stringifyElemsRest es2 ++ ']' :: rest)).head? =
              some c1 := by
            rw [hr]
            simp
          have hlen2 : (stringifyVal e ++ stringifyElemsRest es2).length + 1 ≤ f := by
            rw [show stringifyVal (.arr (e :: es2)) =
              '[' :: (stringifyVal e ++ stringifyElemsRest es2) ++ [']'] from rfl] at hlen
            simp only [List.length_append, List.length_cons, List.length_nil] at hlen ⊢
            omega
          have hL2 : parseElems f (stringifyVal e ++ (stringifyElemsRest es2 ++
              ']' :: rest)) = .ok (e :: es2, rest) := by
            rw [← List.append_assoc]
            exact ih2 e es2 rest hlen2 htail
          rw [hshape, parseVal]
          simp [skipWs, List.dropWhile_cons, isJsonWs, hskip, hhead, hne1, hL2, Except.map]
      | obj fs =>
        cases fs with
        | nil =>
          rw [show stringifyVal (.obj []) ++ rest = '{' :: '}' :: rest from rfl, parseVal]
          simp [skipWs, List.dropWhile_cons, isJsonWs]
        | cons kv fs2 =>
          obtain ⟨k, v2⟩ := kv
          have hshape : stringifyVal (.obj ((k, v2) :: fs2)) ++ rest =
              '{' :: (quoteJSON k ++ ':' :: (stringifyVal v2 ++ (stringifyFieldsRest fs2 ++
                '}' :: rest))) := by
            show ('{' :: (quoteJSON k ++ ':' :: stringifyVal v2 ++ stringifyFieldsRest fs2) ++
              ['}']) ++ rest = _
            simp
          have hr : quoteJSON k ++ ':' :: (stringifyVal v2 ++ (stringifyFieldsRest fs2 ++
              '}' :: rest)) =
              '"' :: (escapeList k ++ '"' :: ':' :: (stringifyVal v2 ++
                (stringifyFieldsRest fs2 ++ '}' :: rest))) := by
            rw [quoteJSON]
            simp
          have hskip : List.dropWhile isJsonWs (quoteJSON k ++ ':' :: (stringifyVal v2 ++
              (stringifyFieldsRest fs2 ++ '}' :: rest))) =
              quoteJSON k ++ ':' :: (stringifyVal v2 ++ (stringifyFieldsRest fs2 ++
                '}' :: rest)) := by
            rw [hr, List.dropWhile_cons, show isJsonWs '"' = false from by decide]
            simp
          have hhead : (quoteJSON k ++ ':' :: (stringifyVal v2 ++ (stringifyFieldsRest fs2 ++
              '}' :: rest))).head? = some '"' := by
            rw [hr]
            simp
          have hlen2 : (quoteJSON k ++ ':' :: stringifyVal v2 ++
              stringifyFieldsRest fs2).length + 1 ≤ f := by
            rw [show stringifyVal (.obj ((k, v2) :: fs2)) =
              '{' :: (quoteJSON k ++ ':' :: stringifyVal v2 ++ stringifyFieldsRest fs2) ++
                ['}'] from rfl] at hlen
            simp only [List.length_append, List.length_cons, List.length_nil] at hlen ⊢
            omega
          have hL3 : parseFields f (quoteJSON k ++ ':' :: (stringifyVal v2 ++
              (stringifyFieldsRest fs2 ++ '}' :: rest))) = .ok ((k, v2) :: fs2, rest) := by
            have h := ih3 k v2 fs2 rest hlen2 htail
            rw [← h]
            congr 1
            simp
          rw [hshape, parseVal]
          simp [skipWs, List.dropWhile_cons, isJsonWs, hskip, hhead, hL3, Except.map]
    · -- parseElems on a stringified element list
      intro e es rest hlen htail
      have hassoc : (stringifyVal e ++ stringifyElemsRest es) ++ ']' :: rest =
          stringifyVal e ++ (stringifyElemsRest es ++ ']' :: rest) := by simp
      have hlen1 : (stringifyVal e).length ≤ f := by
        simp only [List.length_append] at hlen
        omega
      have hv := ih1 e (stringifyElemsRest es ++ ']' :: rest) hlen1 (numTailOk_elems es rest)
      rw [parseElems, hassoc, hv]
      cases es with
      | nil => rfl
      | cons e2 es3 =>
        obtain ⟨c2, r2, hc2, hw2, -, -⟩ := stringify_head e2
        have hshape2 : stringifyElemsRest (e2 :: es3) ++ ']' :: rest =
            ',' :: (stringifyVal e2 ++ (stringifyElemsRest es3 ++ ']' :: rest)) := by
          rw [stringifyElemsRest]
          simp
        have hskip2 : skipWs (stringifyVal e2 ++ (stringifyElemsRest es3 ++ ']' :: rest)) =
            stringifyVal e2 ++ (stringifyElemsRest es3 ++ ']' :: rest) := by
          rw [show stringifyVal e2 ++ (stringifyElemsRest es3 ++ ']' :: rest) =
            c2 :: (r2 ++ (stringifyElemsRest es3 ++ ']' :: rest)) by rw [hc2]; simp]
          exact skipWs_cons_of_not_ws c2 _ hw2
        have hlen3 : (stringifyVal e2 ++ stringifyElemsRest es3).length + 1 ≤ f := by
          rw [stringifyElemsRest] at hlen
          simp only [List.length_append, List.length_cons] at hlen ⊢
          omega
        have hL2 : parseElems f (stringifyVal e2 ++ (stringifyElemsRest es3 ++
            ']' :: rest)) = .ok (e2 :: es3, rest) := by
          rw [← List.append_assoc]
          exact ih2 e2 es3 rest hlen3 htail
        rw [hshape2]
        show (parseElems f (skipWs (stringifyVal e2 ++ (stringifyElemsRest es3 ++
          ']' :: rest)))).map (fun p => (e :: p.1, p.2)) = Except.ok (e :: e2 :: es3, rest)
        rw [hskip2, hL2]
        rfl
    · -- parseFields on a stringified field list
      intro k v fs rest hlen htail
      have hshape : (quoteJSON k ++ ':' :: stringifyVal v ++ stringifyFieldsRest fs) ++
          '}' :: rest =
          '"' :: (escapeList k ++ '"' ::
            (':' :: (stringifyVal v ++ (stringifyFieldsRest fs ++ '}' :: rest)))) := by
        rw [quoteJSON]
        simp
      have hlen1 : (stringifyVal v).length ≤ f := by
        rw [quoteJSON] at hlen
        simp only [List.length_append, List.length_cons] at hlen
        omega
      have hv := ih1 v (stringifyFieldsRest fs ++ '}' :: rest) hlen1 (numTailOk_fields fs rest)
      rw [hshape, parseFields]
      rw [if_pos (show ('"' :: (escapeList k ++ '"' :: (':' :: (stringifyVal v ++
        (stringifyFieldsRest fs ++ '}' :: rest))))).head? = some '"' from rfl)]
      rw [show ('"' :: (escapeList k ++ '"' :: (':' :: (stringifyVal v ++
        (stringifyFieldsRest fs ++ '}' :: rest))))).tail = escapeList k ++ '"' ::
          (':' :: (stringifyVal v ++ (stringifyFieldsRest fs ++ '}' :: rest))) from rfl]
      rw [parseStringBody_quote k (':' :: (stringifyVal v ++ (stringifyFieldsRest fs ++
        '}' :: rest)))]
      show (match parseVal f (stringifyVal v ++ (stringifyFieldsRest fs ++ '}' :: rest)) with
        | Except.error e => Except.error e
        | Except.ok (v2, r3) =>
          if (skipWs r3).head? = some ',' then
            (parseFields f (skipWs (skipWs r3).tail)).map (fun p => ((k, v2) :: p.1, p.2))
          else if (skipWs r3).head? = some '}' then Except.ok ([(k, v2)], (skipWs r3).tail)
          else Except.error ()) = Except.ok ((k, v) :: fs, rest)
      rw [hv]
      cases fs with
      | nil => rfl
      | cons kv2 fs3 =>
        obtain ⟨k2, v2⟩ := kv2
        have hshape2 : stringifyFieldsRest ((k2, v2) :: fs3) ++ '}' :: rest =
            ',' :: (quoteJSON k2 ++ ':' :: (stringifyVal v2 ++ (stringifyFieldsRest fs3 ++
              '}' :: rest))) := by
          rw [stringifyFieldsRest]
          simp
        have hskip2 : skipWs (quoteJSON k2 ++ ':' :: (stringifyVal v2 ++
            (stringifyFieldsRest fs3 ++ '}' :: rest))) =
            quoteJSON k2 ++ ':' :: (stringifyVal v2 ++ (stringifyFieldsRest fs3 ++
              '}' :: rest)) := by
          rw [show quoteJSON k2 ++ ':' :: (stringifyVal v2 ++ (stringifyFieldsRest fs3 ++
            '}' :: rest)) = '"' :: (escapeList k2 ++ '"' :: ':' :: (stringifyVal v2 ++
              (stringifyFieldsRest fs3 ++ '}' :: rest))) by rw [quoteJSON]; simp]
          exact skipWs_cons_of_not_ws '"' _ (by decide)
        have hlen3 : (quoteJSON k2 ++ ':' :: stringifyVal v2 ++
            stringifyFieldsRest fs3).length + 1 ≤ f := by
          rw [stringifyFieldsRest] at hlen
          simp only [List.length_append, List.length_cons] at hlen ⊢
          omega
        have hL3 : parseFields f (quoteJSON k2 ++ ':' :: (stringifyVal v2 ++
            (stringifyFieldsRest fs3 ++ '}' :: rest))) = .ok ((k2, v2) :: fs3, rest) := by
          have h := ih3 k2 v2 fs3 rest hlen3 htail
          rw [← h]
          congr 1
          simp
        rw [hshape2]
        show (parseFields f (skipWs (quoteJSON k2 ++ ':' :: (stringifyVal v2 ++
          (stringifyFieldsRest fs3 ++ '}' :: rest))))).map (fun p => ((k, v) :: p.1, p.2)) =
          Except.ok ((k, v) :: (k2, v2) :: fs3, rest)
        rw [hskip2, hL3]
        rfl

/-- JSON round trip: parsing a stringified value recovers it exactly. -/
theorem jsonParse_stringify (v : RawValue) : jsonParse (stringifyVal v) = .ok v := by
  unfold jsonParse
  have h := (parse_stringify_aux ((stringifyVal v).length + 1)).1 v [] (by omega) trivial
  rw [List.append_nil] at h
  rw [h]
  rfl

/-! ## Lemmas: the full `toBytes` / `fromBytes` pipeline -/

/-- Keys of `toRaw` output keep the entity's key distinctness. -/
theorem toRawProps_keys_nodup (ps : List (List Char × Value)) (ex : List (List Char))
    (hnd : (ps.map Prod.fst).Nodup) : ((toRawProps ps ex).map Prod.fst).Nodup := by
  rw [toRawProps_keys]
  exact hnd.filter _

/-- Serializing the untyped image of a non-private raw mapping is the
identity: `toRaw` of a freshly restored instance reproduces the raw
mapping. -/
theorem toRawProps_of_prims (raw : List (List Char × RawValue))
    (h : ∀ kv ∈ raw, isPrivateName kv.1 = false) :
    toRawProps (raw.map (fun kv => (kv.1, Value.prim kv.2))) [] = raw := by
  induction raw with
  | nil => rfl
  | cons kv rest ih =>
    rw [List.map_cons, toRawProps]
    rw [if_neg (by
      rw [h kv (List.mem_cons_self kv rest)]
      simp)]
    rw [ih (fun q hq => h q (List.mem_cons_of_mem kv hq))]
    rfl

/-- C1: byte-level round trip.  For any `Serializable` instance `e` (with
distinct property names, as JavaScript guarantees) whose properties are in
the model (JSON-representable plain data, nested instances, or arrays of
such — the claim's hypothesis), restoring a fresh empty instance with
`fromBytes (toBytes e)` under the base class's `validate` succeeds, the
restored instance carries exactly the serialized public properties of `e`
as untyped plain data, and it is structurally equal to `e` on every public
(non-private-prefixed) property: its public serialization `toRaw` agrees
with `e`'s exactly. -/
theorem c1_bytes_roundtrip (e : SEntity) (hnd : (e.props.map Prod.fst).Nodup) :
    fromBytes baseValidate (SEntity.mk []) (toBytes e) =
      (SEntity.mk ((toRaw e []).map (fun kv => (kv.1, Value.prim kv.2))), none) ∧
    toRaw (fromBytes baseValidate (SEntity.mk []) (toBytes e)).1 [] = toRaw e [] := by
  have hpriv : ∀ kv ∈ toRaw e [], isPrivateName kv.1 = false :=
    fun kv hkv => (toRawProps_mem_keys e.props [] kv hkv).1
  have hndraw : ((toRaw e []).map Prod.fst).Nodup := toRawProps_keys_nodup e.props [] hnd
  have hmain : fromBytes baseValidate (SEntity.mk []) (toBytes e) =
      (SEntity.mk ((toRaw e []).map (fun kv => (kv.1, Value.prim kv.2))), none) := by
    unfold fromBytes toBytes
    rw [bytesToString_stringToBytes (toJSON e)]
    show fromJSON baseValidate (SEntity.mk []) (toJSON e) = _
    unfold fromJSON toJSON
    rw [jsonParse_stringify (.obj (toRaw e))]
    show fromRaw baseValidate (SEntity.mk []) (assignablePairs (.obj (toRaw e))) = _
    rw [show assignablePairs (.obj (toRaw e)) = toRaw e from rfl]
    unfold fromRaw
    rw [assign_empty (toRaw e) hndraw]
    rfl
  refine ⟨hmain, ?_⟩
  rw [hmain]
  show toRaw (SEntity.mk ((toRaw e []).map (fun kv => (kv.1, Value.prim kv.2)))) [] = toRaw e []
  unfold toRaw
  rw [SEntity.props]
  exact toRawProps_of_prims (toRaw e []) hpriv

/-- C1 witness: a concrete entity with a private field, a public scalar, a
nested instance and a mixed array, pushed through the full
`toBytes`/`fromBytes` pipeline. -/
theorem c1_bytes_roundtrip_witness :
    toRaw (fromBytes baseValidate (SEntity.mk [])
        (toBytes (SEntity.mk
          [(['_', 's'], Value.prim (RawValue.num 5)),
           (['n'], Value.prim (RawValue.str ['h', '"'])),
           (['s', 'u', 'b'], Value.entity (SEntity.mk [(['b'], Value.prim (RawValue.bool true))])),
           (['l'], Value.array [Elem.prim RawValue.null,
             Elem.entity (SEntity.mk [(['c'], Value.prim (RawValue.num (-2)))])])]))).1 [] =
      toRaw (SEntity.mk
          [(['_', 's'], Value.prim (RawValue.num 5)),
           (['n'], Value.prim (RawValue.str ['h', '"'])),
           (['s', 'u', 'b'], Value.entity (SEntity.mk [(['b'], Value.prim (RawValue.bool true))])),
           (['l'], Value.array [Elem.prim RawValue.null,
             Elem.entity (SEntity.mk [(['c'], Value.prim (RawValue.num (-2)))])])]) [] :=
  (c1_bytes_roundtrip (SEntity.mk
          [(['_', 's'], Value.prim (RawValue.num 5)),
           (['n'], Value.prim (RawValue.str ['h', '"'])),
           (['s', 'u', 'b'], Value.entity (SEntity.mk [(['b'], Value.prim (RawValue.bool true))])),
           (['l'], Value.array [Elem.prim RawValue.null,
             Elem.entity (SEntity.mk [(['c'], Value.prim (RawValue.num (-2)))])])])
    (by decide)).2

/-- C4 counterexample: on the malformed input `"x"`, `fromJSON` fails with
the parser's raw `SyntaxError` — not with `EncodingError` as the claim
states — because the source calls `JSON.parse` outside any `try`/`catch`. -/
theorem c4_counterexample :
    fromJSON baseValidate (SEntity.mk []) ['x'] =
      (SEntity.mk [], some ErrKind.rawParseError) ∧
    ErrKind.rawParseError ≠ ErrKind.encodingError := by
  exact ⟨rfl, by decide⟩

/-- C4 amended: `fromJSON(s)` behaves as `fromRaw` applied to the result of
a bare `JSON.parse(s)`: on well-formed JSON it coincides with the spec's
`fromRaw(unmarshal(s))` composition, but on malformed JSON it fails with
the parser's raw `SyntaxError` and leaves the instance untouched, whereas
the spec's composition would fail with `EncodingError`. -/
theorem c4_fromJSON_amended (validate : Validator) (e : SEntity) (s : List Char) :
    (∀ r, jsonParse s = .ok r →
      fromJSON validate e s = fromRaw validate e (assignablePairs r) ∧
      fromJSON validate e s = fromJSONPerSpec validate e s) ∧
    (∀ err, jsonParse s = .error err →
      fromJSON validate e s = (e, some ErrKind.rawParseError) ∧
      fromJSONPerSpec validate e s = (e, some ErrKind.encodingError)) := by
  constructor
  · intro r hr
    constructor
    · unfold fromJSON
      rw [hr]
    · unfold fromJSON fromJSONPerSpec unmarshal
      rw [hr]
  · intro err herr
    constructor
    · unfold fromJSON
      rw [herr]
    · unfold fromJSONPerSpec unmarshal
      rw [herr]

/-- C4 amended witness: the divergence at the malformed input `"x"` and the
agreement at the well-formed input `"1"`. -/
theorem c4_fromJSON_amended_witness :
    fromJSON baseValidate (SEntity.mk []) ['x'] =
      (SEntity.mk [], some ErrKind.rawParseError) ∧
    fromJSONPerSpec baseValidate (SEntity.mk []) ['x'] =
      (SEntity.mk [], some ErrKind.encodingError) ∧
    fromJSON baseValidate (SEntity.mk []) ['1'] =
      fromJSONPerSpec baseValidate (SEntity.mk []) ['1'] := by
  have h1 := (c4_fromJSON_amended baseValidate (SEntity.mk []) ['x']).2
    ErrKind.rawParseError rfl
  have h2 := (c4_fromJSON_amended baseValidate (SEntity.mk []) ['1']).1
    (RawValue.num 1) rfl
  exact ⟨h1.1, h1.2, h2.2⟩
